import Mathlib

/-!
# Shallow embedding of the path-tree engine of `gitlab-pipeline-status-page`

This file embeds, in Lean, the hierarchical path-tree engine of the
repository: the tree builder `buildProjectPathTree`, the selection
aggregation `updateParentSelectionState` / `markSelectedProjectsAndGroups`,
the search filter `FilterProjects` / `IsPathInSearch` /
`EnsurePathVisibility`, the expand-state persistence `storeExpandedState` /
`applyExpandedState`, and the selection mutation `processNodeSelection` /
`selectNodeAndChildren`, and proves or refutes the specified properties.

Modelling conventions:
* Go maps (`map[string]*PathNode`, `map[string]bool`, `map[int]bool`) are
  modelled as name-sorted sibling lists (a canonical representation of the
  unordered Go map; the renderer sorts child keys lexicographically) and as
  functions `String → Option Bool` / `Int → Bool`.
* Functions that mutate a node in place and return a `bool` are modelled as
  pure functions returning the new tree paired with the boolean, or an
  `Option` of the new tree when `false` means "nothing was changed".
* A Go `panic` (assignment to a leaf's `nil` children map) is modelled by
  `Option`/`none` propagated out of the build.
* The repository is built with Go 1.21 (Dockerfile `FROM golang:1.21-alpine`),
  so the `for _, project := range filteredProjects` loop declares a single
  `project` variable for the whole loop and `Project: &project` makes every
  leaf alias that one variable; after the loop it holds the last filtered
  record.  This observation is modelled by the final `aliasPayloads` pass.
-/

/-- Mirrors the fields of `models.CachedProject` (models.go) that the tree
engine reads: the GitLab project id, the display name and the
slash-delimited full path. -/
structure CachedProject where
  id : Int
  name : String
  pathWithNamespace : String
deriving DecidableEq, Repr

/-- Go `strings.ToLower` (the inputs of interest are ASCII, where
`Char.toLower` agrees with Go's Unicode lowering). -/
def strToLower (s : String) : String := ⟨s.data.map Char.toLower⟩

/-- Go `strings.Contains`: substring containment. -/
def strContains (s sub : String) : Bool := decide (sub.data <:+: s.data)

/-- Character-level splitting used to model Go `strings.Split(s, "/")`
(the separator is the single character `/`).  `splitChar sep cs` always
returns a non-empty list of separator-free segments. -/
def splitChar (sep : Char) : List Char → List (List Char)
  | [] => [[]]
  | c :: cs =>
    match splitChar sep cs with
    | [] => [[c]]
    | s :: ss => if c = sep then [] :: s :: ss else (c :: s) :: ss

/-- Go `strings.Split(s, "/")`. -/
def splitSlash (s : String) : List String :=
  (splitChar '/' s.data).map List.asString

/-- Mirrors `handlers.PathNode` (part of the settings handler): `Name`,
`Path`, `FullPath`, `IsProject`, `Project`, `Children`, `Level`, `Expanded`,
`Selected`.  The Go `Children map[string]*PathNode` (keyed by the child's
`Name`) is modelled as a name-sorted list of children; a leaf's `nil` map is
the empty list together with `isProject = true`. -/
inductive PathNode : Type where
  | mk (name path fullPath : String) (isProject : Bool)
       (project : Option CachedProject) (children : List PathNode)
       (level : Nat) (expanded selected : Bool) : PathNode
deriving Repr

namespace PathNode

def name : PathNode → String
  | .mk n _ _ _ _ _ _ _ _ => n

def path : PathNode → String
  | .mk _ p _ _ _ _ _ _ _ => p

def fullPath : PathNode → String
  | .mk _ _ fp _ _ _ _ _ _ => fp

def isProject : PathNode → Bool
  | .mk _ _ _ ip _ _ _ _ _ => ip

def project : PathNode → Option CachedProject
  | .mk _ _ _ _ pr _ _ _ _ => pr

def children : PathNode → List PathNode
  | .mk _ _ _ _ _ cs _ _ _ => cs

def level : PathNode → Nat
  | .mk _ _ _ _ _ _ lv _ _ => lv

def expanded : PathNode → Bool
  | .mk _ _ _ _ _ _ _ e _ => e

def selected : PathNode → Bool
  | .mk _ _ _ _ _ _ _ _ s => s

@[simp] theorem name_mk (n p fp ip pr cs lv e s) :
    (PathNode.mk n p fp ip pr cs lv e s).name = n := rfl
@[simp] theorem path_mk (n p fp ip pr cs lv e s) :
    (PathNode.mk n p fp ip pr cs lv e s).path = p := rfl
@[simp] theorem fullPath_mk (n p fp ip pr cs lv e s) :
    (PathNode.mk n p fp ip pr cs lv e s).fullPath = fp := rfl
@[simp] theorem isProject_mk (n p fp ip pr cs lv e s) :
    (PathNode.mk n p fp ip pr cs lv e s).isProject = ip := rfl
@[simp] theorem project_mk (n p fp ip pr cs lv e s) :
    (PathNode.mk n p fp ip pr cs lv e s).project = pr := rfl
@[simp] theorem children_mk (n p fp ip pr cs lv e s) :
    (PathNode.mk n p fp ip pr cs lv e s).children = cs := rfl
@[simp] theorem level_mk (n p fp ip pr cs lv e s) :
    (PathNode.mk n p fp ip pr cs lv e s).level = lv := rfl
@[simp] theorem expanded_mk (n p fp ip pr cs lv e s) :
    (PathNode.mk n p fp ip pr cs lv e s).expanded = e := rfl
@[simp] theorem selected_mk (n p fp ip pr cs lv e s) :
    (PathNode.mk n p fp ip pr cs lv e s).selected = s := rfl

/-- Structural induction principle for `PathNode` that provides the
inductive hypothesis for every child in the (nested) children list. -/
theorem inductionOn {motive : PathNode → Prop}
    (h : ∀ n p fp ip pr cs lv e s,
      (∀ c ∈ cs, motive c) → motive (.mk n p fp ip pr cs lv e s)) :
    ∀ t, motive t
  | .mk n p fp ip pr cs lv e s =>
    h n p fp ip pr cs lv e s (fun c hc =>
      have : sizeOf c < sizeOf (PathNode.mk n p fp ip pr cs lv e s) := by
        have h1 := List.sizeOf_lt_of_mem hc
        simp only [PathNode.mk.sizeOf_spec]
        omega
      inductionOn h c)
termination_by t => sizeOf t

end PathNode

/-- Lookup in the modelled children map: Go `node.Children[part]`. -/
def lookupChild (k : String) : List PathNode → Option PathNode
  | [] => none
  | c :: cs => if c.name = k then some c else lookupChild k cs

/-- Lexicographic order on character lists by code point, used to keep the
modelled children map canonically sorted (the Go map itself is unordered
and the renderer sorts keys). -/
def charsLt : List Char → List Char → Bool
  | [], [] => false
  | [], _ :: _ => true
  | _ :: _, [] => false
  | a :: as, b :: bs =>
    if a.toNat < b.toNat then true
    else if b.toNat < a.toNat then false
    else charsLt as bs

/-- Insert/overwrite in the modelled children map: Go
`node.Children[part] = child` (the inserted node's `name` is the key).
Keeps the sibling list sorted by name, the canonical representation of the
unordered Go map. -/
def insertChild (c : PathNode) : List PathNode → List PathNode
  | [] => [c]
  | d :: ds =>
    if c.name = d.name then c :: ds
    else if charsLt c.name.data d.name.data then c :: d :: ds
    else d :: insertChild c ds

/-! ## The search filter (part_003 `FilterProjects`, `IsPathInSearch`) -/

/-- part_003 `FilterProjects`: keeps the cached projects whose name or path
contains the search term (case-insensitive). -/
def FilterProjects (projects : List CachedProject) (searchTerm : String) :
    List CachedProject :=
  if searchTerm = "" then projects
  else
    let q := strToLower searchTerm
    projects.filter (fun p =>
      strContains (strToLower p.name) q ||
      strContains (strToLower p.pathWithNamespace) q)

/-- part_003 `IsPathInSearch`: case-insensitive substring test on a path. -/
def IsPathInSearch (path searchTerm : String) : Bool :=
  if searchTerm = "" then true
  else strContains (strToLower path) (strToLower searchTerm)

/-! ## Search-forced expansion (part_003 `EnsurePathVisibility`) -/

mutual

/-- part_003 `EnsurePathVisibility`: returns the updated node together with
the Go function's boolean result ("this subtree is visible"). -/
def EnsurePathVisibility (n : PathNode) (searchTerm : String) :
    PathNode × Bool :=
  match n with
  | .mk nm p fp ip pr cs lv e s =>
    if searchTerm ≠ "" ∧ IsPathInSearch fp searchTerm = false then
      let rs := ensureChildren cs searchTerm
      let hasMatchingChild := rs.any (fun r => r.2)
      (.mk nm p fp ip pr (rs.map (fun r => r.1)) lv
        (if hasMatchingChild then true else e) s, hasMatchingChild)
    else
      if ip = false then (.mk nm p fp ip pr cs lv true s, true)
      else (.mk nm p fp ip pr cs lv e s, true)
termination_by structural n

def ensureChildren (cs : List PathNode) (searchTerm : String) :
    List (PathNode × Bool) :=
  match cs with
  | [] => []
  | c :: rest => EnsurePathVisibility c searchTerm :: ensureChildren rest searchTerm
termination_by structural cs

end

/-! ## Selection aggregation (part_003 `updateParentSelectionState`) -/

mutual

/-- part_003 `updateParentSelectionState`: recomputes every structural
node's `Selected` flag bottom-up; returns the node's (possibly new)
`Selected` value as the Go function does.  A project returns its own flag
and a childless structural node returns `false`, both unchanged. -/
def updateParentSelectionState (n : PathNode) : PathNode × Bool :=
  match n with
  | .mk nm p fp ip pr cs lv e s =>
    if ip then (.mk nm p fp ip pr cs lv e s, s)
    else if cs.isEmpty then (.mk nm p fp ip pr cs lv e s, false)
    else
      let rs := upsChildren cs
      let allSelected := rs.all (fun r => r.2)
      (.mk nm p fp ip pr (rs.map (fun r => r.1)) lv e allSelected, allSelected)
termination_by structural n

def upsChildren (cs : List PathNode) : List (PathNode × Bool) :=
  match cs with
  | [] => []
  | c :: rest => updateParentSelectionState c :: upsChildren rest
termination_by structural cs

end

/-! ## Expand-state persistence (part_003 `storeExpandedState`,
`applyExpandedState`).  The session map `map[string]bool` is modelled as a
function `String → Option Bool` (`none` = key absent). -/

/-- Map update: Go `expandedPaths[path] = value`. -/
def insertBool (m : String → Option Bool) (k : String) (v : Bool) :
    String → Option Bool :=
  fun x => if x = k then some v else m x

mutual

/-- part_003 `storeExpandedState`: records every structural node's
`Expanded` flag under its full path (both `true` and `false` are written;
projects are skipped). -/
def storeExpandedState (n : PathNode) (m : String → Option Bool) :
    String → Option Bool :=
  match n with
  | .mk _ _ fp ip _ cs _ e _ =>
    storeChildren cs (if ip = false then insertBool m fp e else m)
termination_by structural n

def storeChildren (cs : List PathNode) (m : String → Option Bool) :
    String → Option Bool :=
  match cs with
  | [] => m
  | c :: rest => storeChildren rest (storeExpandedState c m)
termination_by structural cs

end

mutual

/-- part_003 `applyExpandedState`: every structural node whose full path is
present in the persisted map takes the stored boolean; absent paths and
projects are untouched. -/
def applyExpandedState (n : PathNode) (m : String → Option Bool) : PathNode :=
  match n with
  | .mk nm p fp ip pr cs lv e s =>
    let e' := if ip = false then (m fp).getD e else e
    .mk nm p fp ip pr (applyChildren cs m) lv e' s
termination_by structural n

def applyChildren (cs : List PathNode) (m : String → Option Bool) :
    List PathNode :=
  match cs with
  | [] => []
  | c :: rest => applyExpandedState c m :: applyChildren rest m
termination_by structural cs

end

/-! ## Selection mutation (part_003 `processNodeSelection`,
`selectNodeAndChildren`) -/

mutual

/-- part_003 `selectNodeAndChildren`: sets `Selected` on a node and its
whole subtree. -/
def selectNodeAndChildren (n : PathNode) (selected : Bool) : PathNode :=
  match n with
  | .mk nm p fp ip pr cs lv e _ =>
    .mk nm p fp ip pr (selectChildren cs selected) lv e selected
termination_by structural n

def selectChildren (cs : List PathNode) (selected : Bool) : List PathNode :=
  match cs with
  | [] => []
  | c :: rest => selectNodeAndChildren c selected :: selectChildren rest selected
termination_by structural cs

end

mutual

/-- part_003 `processNodeSelection`.  The Go function mutates the tree in
place and returns a `bool`; here `some t'` models "returned `true`, tree now
`t'`" and `none` models "returned `false`, tree unchanged".  When the target
is found the node's own assignment `node.Selected = selected` is immediately
repeated by `selectNodeAndChildren`, so only the latter appears.  After a
child reports success the Go code calls `updateParentSelectionState` on the
current node. -/
def processNodeSelection (n : PathNode) (targetPath : String)
    (selected : Bool) : Option PathNode :=
  match n with
  | .mk nm p fp ip pr cs lv e s =>
    if fp = targetPath then
      some (selectNodeAndChildren (.mk nm p fp ip pr cs lv e s) selected)
    else
      match processChildren cs targetPath selected with
      | some cs' =>
        some (updateParentSelectionState (.mk nm p fp ip pr cs' lv e s)).1
      | none => none
termination_by structural n

/-- The Go loop over `node.Children`: project children are skipped, and the
walk stops at the first structural child in which the target was found. -/
def processChildren (cs : List PathNode) (targetPath : String)
    (selected : Bool) : Option (List PathNode) :=
  match cs with
  | [] => none
  | c :: rest =>
    if c.isProject then
      (processChildren rest targetPath selected).map (fun rs => c :: rs)
    else
      match processNodeSelection c targetPath selected with
      | some c' => some (c' :: rest)
      | none => (processChildren rest targetPath selected).map (fun rs => c :: rs)
termination_by structural cs

end

/-! ## The tree builder (part_003 `buildProjectPathTree`) -/

/-- The leaf node created for the last path segment
(part_003, `projectNode := &PathNode{...}`). -/
def leafNode (part fp : String) (i : Nat) (proj : CachedProject)
    (selectedProjectMap : Int → Bool) : PathNode :=
  .mk part part fp true (some proj) [] (i + 1) false
    (selectedProjectMap proj.id)

/-- The structural (directory/group) node created for a non-final path
segment; `Expanded: i < 1` expands only the top level by default, and the
Go zero value leaves `Selected = false`. -/
def structNode (part fp : String) (i : Nat) : PathNode :=
  .mk part part fp false none [] (i + 1) (decide (i < 1)) false

/-- The walk of part_003's inner `for i, part := range parts` loop for one
record: `fpAcc`/`i` are the accumulated full path and segment index.
Writing into a leaf's `nil` children map is a Go panic, modelled by `none`;
a final segment overwrites whatever child holds that name (leaf wins). -/
def insertParts (selectedProjectMap : Int → Bool) (proj : CachedProject) :
    PathNode → String → Nat → List String → Option PathNode
  | cur, _, _, [] => some cur
  | cur, fpAcc, i, part :: rest =>
    let fp' := if i = 0 then part else fpAcc ++ "/" ++ part
    match cur with
    | .mk nm p fp ip pr cs lv e s =>
      if ip then none
      else if rest.isEmpty then
        some (.mk nm p fp ip pr
          (insertChild (leafNode part fp' i proj selectedProjectMap) cs) lv e s)
      else
        let child := (lookupChild part cs).getD (structNode part fp' i)
        (insertParts selectedProjectMap proj child fp' (i + 1) rest).map
          (fun c' => .mk nm p fp ip pr (insertChild c' cs) lv e s)

/-- One iteration of the outer `for _, project := range filteredProjects`
loop. -/
def insertProject (selectedProjectMap : Int → Bool) (root : PathNode)
    (proj : CachedProject) : Option PathNode :=
  insertParts selectedProjectMap proj root "" 0
    (splitSlash proj.pathWithNamespace)

/-- The root node built at the top of `buildProjectPathTree`. -/
def rootNode : PathNode := .mk "Root" "" "" false none [] 0 true false

mutual

/-- Go 1.21 loop-variable capture: every leaf's `Project` field points at
the single `project` range variable, which after the loop holds the last
element of `filteredProjects`; post-build observers therefore read that
last record through every leaf.  This pass sets every leaf's payload
accordingly. -/
def aliasPayloads (last : Option CachedProject) (n : PathNode) : PathNode :=
  match n with
  | .mk nm p fp ip pr cs lv e s =>
    .mk nm p fp ip (if ip then last else pr) (aliasChildren last cs) lv e s
termination_by structural n

def aliasChildren (last : Option CachedProject) (cs : List PathNode) :
    List PathNode :=
  match cs with
  | [] => []
  | c :: rest => aliasPayloads last c :: aliasChildren last rest
termination_by structural cs

end

/-- part_003 `buildProjectPathTree`: filter by the search term, insert every
remaining record, recompute parents' selection state bottom-up and, when
searching, force ancestor visibility.  `none` models the Go panic on a
leaf/structural path collision (write into a `nil` children map). -/
def buildProjectPathTree (projects : List CachedProject)
    (selectedProjectMap : Int → Bool) (searchTerm : String) :
    Option PathNode :=
  let filteredProjects := FilterProjects projects searchTerm
  match filteredProjects.foldl
      (fun acc p => acc.bind (fun t => insertProject selectedProjectMap t p))
      (some rootNode) with
  | none => none
  | some t =>
    let t1 := aliasPayloads filteredProjects.getLast? t
    let t2 := (updateParentSelectionState t1).1
    some (if searchTerm ≠ "" then (EnsurePathVisibility t2 searchTerm).1 else t2)

/-! ## The request pipelines around the builder (part_003
`SettingsPageHandler` / `RenderPathTreeHandler`).

Both handlers build the tree with the search term already applied and then
apply the persisted expand state.  Only the HTMX search branch runs
`EnsurePathVisibility` again after that; the full-page render returns the
tree with the persisted state applied last. -/

/-- The tree a full-page settings render works from: build (which already
ran `EnsurePathVisibility` when searching) then `applyExpandedState`. -/
def settingsFullPageTree (projects : List CachedProject)
    (selectedProjectMap : Int → Bool) (searchTerm : String)
    (expandedPaths : String → Option Bool) : Option PathNode :=
  (buildProjectPathTree projects selectedProjectMap searchTerm).map
    (fun t => applyExpandedState t expandedPaths)

/-- The tree an HTMX search request renders: build, apply the persisted
expand state, then `EnsurePathVisibility` once more (part_003 lines
316-330 and the same sequence in `RenderPathTreeHandler`). -/
def settingsHtmxSearchTree (projects : List CachedProject)
    (selectedProjectMap : Int → Bool) (searchTerm : String)
    (expandedPaths : String → Option Bool) : Option PathNode :=
  (buildProjectPathTree projects selectedProjectMap searchTerm).map
    (fun t =>
      (EnsurePathVisibility (applyExpandedState t expandedPaths) searchTerm).1)

/-! ## The group-tree variant (handlers/settings.go
`markSelectedProjectsAndGroups`).

`models.Group` / `models.Project` are embedded with the fields the marking
function reads and writes. -/

/-- Mirrors the fields of `models.Project` read by
`markSelectedProjectsAndGroups`: the id and the `Selected` flag. -/
structure ProjectRec where
  id : Int
  name : String
  selected : Bool
deriving DecidableEq, Repr

/-- Mirrors the fields of `models.Group` used by
`markSelectedProjectsAndGroups`: direct projects, subgroups and the
`Selected` flag. -/
inductive GroupNode : Type where
  | mk (name : String) (projects : List ProjectRec) (subgroups : List GroupNode)
       (selected : Bool) : GroupNode
deriving Repr

def GroupNode.name : GroupNode → String
  | .mk n _ _ _ => n

def GroupNode.projects : GroupNode → List ProjectRec
  | .mk _ ps _ _ => ps

def GroupNode.subgroups : GroupNode → List GroupNode
  | .mk _ _ sg _ => sg

def GroupNode.selected : GroupNode → Bool
  | .mk _ _ _ s => s

@[simp] theorem GroupNode.groupName_mk (n ps sg s) : (GroupNode.mk n ps sg s).name = n := rfl
@[simp] theorem GroupNode.projects_mk (n ps sg s) :
    (GroupNode.mk n ps sg s).projects = ps := rfl
@[simp] theorem GroupNode.subgroups_mk (n ps sg s) :
    (GroupNode.mk n ps sg s).subgroups = sg := rfl
@[simp] theorem GroupNode.groupSelected_mk (n ps sg s) :
    (GroupNode.mk n ps sg s).selected = s := rfl

mutual

/-- The body of settings.go `markSelectedProjectsAndGroups` for one group:
projects in the selected map are marked (never unmarked), subgroups are
processed recursively, and the group's own flag becomes
`allProjectsSelected && allSubgroupsSelected && (len(Projects) > 0 ||
len(Subgroups) > 0)` where `allProjectsSelected` starts as
`len(Projects) > 0`. -/
def markGroup (g : GroupNode) (selectedProjectMap : Int → Bool) : GroupNode :=
  match g with
  | .mk nm ps sg _ =>
    let ps' := ps.map (fun p =>
      if selectedProjectMap p.id then { p with selected := true } else p)
    let allProjectsSelected :=
      decide (ps.length > 0) && ps.all (fun p => selectedProjectMap p.id)
    let sg' := markGroups sg selectedProjectMap
    let allSubgroupsSelected := sg'.all GroupNode.selected
    .mk nm ps' sg'
      (allProjectsSelected && allSubgroupsSelected &&
        (decide (ps.length > 0) || decide (sg.length > 0)))
termination_by structural g

/-- settings.go `markSelectedProjectsAndGroups` (the Go function takes the
slice and mutates each element). -/
def markGroups (groups : List GroupNode) (selectedProjectMap : Int → Bool) :
    List GroupNode :=
  match groups with
  | [] => []
  | g :: gs => markGroup g selectedProjectMap :: markGroups gs selectedProjectMap
termination_by structural groups

end

/-- Alias carrying the Go name. -/
def markSelectedProjectsAndGroups (groups : List GroupNode)
    (selectedProjectMap : Int → Bool) : List GroupNode :=
  markGroups groups selectedProjectMap

/-- Walk the tree along a list of segment names (observer used to state
properties; follows the children map like the Go renderer does). -/
def lookupPath (t : PathNode) : List String → Option PathNode
  | [] => some t
  | k :: rest =>
    match lookupChild k t.children with
    | some c => lookupPath c rest
    | none => none

/-! ## Basic equations: each mutual children-walker is a `List.map`/`foldl` -/

@[simp] theorem ensureChildren_eq (cs : List PathNode) (q : String) :
    ensureChildren cs q = cs.map (fun c => EnsurePathVisibility c q) := by
  induction cs with
  | nil => simp [ensureChildren]
  | cons c rest ih => simp [ensureChildren, ih]

@[simp] theorem upsChildren_eq (cs : List PathNode) :
    upsChildren cs = cs.map updateParentSelectionState := by
  induction cs with
  | nil => simp [upsChildren]
  | cons c rest ih => simp [upsChildren, ih]

@[simp] theorem storeChildren_eq (cs : List PathNode) (m : String → Option Bool) :
    storeChildren cs m = cs.foldl (fun acc c => storeExpandedState c acc) m := by
  induction cs generalizing m with
  | nil => simp [storeChildren]
  | cons c rest ih => simp [storeChildren, ih]

@[simp] theorem applyChildren_eq (cs : List PathNode) (m : String → Option Bool) :
    applyChildren cs m = cs.map (fun c => applyExpandedState c m) := by
  induction cs with
  | nil => simp [applyChildren]
  | cons c rest ih => simp [applyChildren, ih]

@[simp] theorem selectChildren_eq (cs : List PathNode) (b : Bool) :
    selectChildren cs b = cs.map (fun c => selectNodeAndChildren c b) := by
  induction cs with
  | nil => simp [selectChildren]
  | cons c rest ih => simp [selectChildren, ih]

@[simp] theorem aliasChildren_eq (last : Option CachedProject) (cs : List PathNode) :
    aliasChildren last cs = cs.map (aliasPayloads last) := by
  induction cs with
  | nil => simp [aliasChildren]
  | cons c rest ih => simp [aliasChildren, ih]

@[simp] theorem markGroups_eq (gs : List GroupNode) (selm : Int → Bool) :
    markGroups gs selm = gs.map (fun g => markGroup g selm) := by
  induction gs with
  | nil => simp [markGroups]
  | cons g rest ih => simp [markGroups, ih]

/-! ## The frame observer: everything except `Selected` -/

mutual

/-- Forgets every `Selected` flag in the tree (used to state that an
operation can change nothing else). -/
def eraseSel (n : PathNode) : PathNode :=
  match n with
  | .mk nm p fp ip pr cs lv e _ =>
    .mk nm p fp ip pr (eraseSelChildren cs) lv e false
termination_by structural n

def eraseSelChildren (cs : List PathNode) : List PathNode :=
  match cs with
  | [] => []
  | c :: rest => eraseSel c :: eraseSelChildren rest
termination_by structural cs

end

@[simp] theorem eraseSelChildren_eq (cs : List PathNode) :
    eraseSelChildren cs = cs.map eraseSel := by
  induction cs with
  | nil => simp [eraseSelChildren]
  | cons c rest ih => simp [eraseSelChildren, ih]

theorem eraseSel_selectNodeAndChildren (b : Bool) (n : PathNode) :
    eraseSel (selectNodeAndChildren n b) = eraseSel n := by
  induction n using PathNode.inductionOn with
  | h nm p fp ip pr cs lv e s ih =>
    simp only [selectNodeAndChildren, eraseSel, selectChildren_eq,
      eraseSelChildren_eq, List.map_map]
    congr 1
    exact List.map_congr_left (fun c hc => ih c hc)

theorem eraseSel_updateParentSelectionState (n : PathNode) :
    eraseSel (updateParentSelectionState n).1 = eraseSel n := by
  induction n using PathNode.inductionOn with
  | h nm p fp ip pr cs lv e s ih =>
    cases ip with
    | true => simp [updateParentSelectionState, eraseSel]
    | false =>
      cases cs with
      | nil => simp [updateParentSelectionState, eraseSel]
      | cons c rest =>
        simp only [updateParentSelectionState, List.isEmpty_cons,
          Bool.false_eq_true, if_false, upsChildren_eq, eraseSel,
          eraseSelChildren_eq, List.map_map]
        congr 1
        exact List.map_congr_left (fun d hd => ih d hd)


theorem eraseSel_processChildren (p : String) (b : Bool) (cs : List PathNode)
    (hnode : ∀ c ∈ cs, ∀ t', processNodeSelection c p b = some t' →
      eraseSel t' = eraseSel c) :
    ∀ cs', processChildren cs p b = some cs' →
      cs'.map eraseSel = cs.map eraseSel := by
  induction cs with
  | nil => intro cs' h; rw [processChildren] at h; exact absurd h (by simp)
  | cons c rest ih =>
    intro cs' h
    rw [processChildren] at h
    by_cases hip : c.isProject = true
    · rw [if_pos hip] at h
      match hr : processChildren rest p b with
      | none => rw [hr] at h; exact absurd h (by simp)
      | some rs =>
        rw [hr] at h
        simp only [Option.map_some'] at h
        cases h
        simp only [List.map_cons]
        rw [ih (fun d hd => hnode d (List.mem_cons_of_mem _ hd)) rs hr]
    · rw [if_neg hip] at h
      match hc : processNodeSelection c p b with
      | some c' =>
        rw [hc] at h
        simp only [Option.some.injEq] at h
        cases h
        simp only [List.map_cons]
        rw [hnode c (List.mem_cons_self c rest) c' hc]
      | none =>
        rw [hc] at h
        match hr : processChildren rest p b with
        | none => rw [hr] at h; exact absurd h (by simp)
        | some rs =>
          rw [hr] at h
          simp only [Option.map_some'] at h
          cases h
          simp only [List.map_cons]
          rw [ih (fun d hd => hnode d (List.mem_cons_of_mem _ hd)) rs hr]

theorem eraseSel_processNodeSelection (p : String) (b : Bool) (n : PathNode) :
    ∀ t', processNodeSelection n p b = some t' → eraseSel t' = eraseSel n := by
  induction n using PathNode.inductionOn with
  | h nm pa fp ip pr cs lv e s ih =>
    intro t' ht'
    rw [processNodeSelection] at ht'
    by_cases hfp : fp = p
    · subst hfp
      rw [if_pos rfl] at ht'
      simp only [Option.some.injEq] at ht'
      cases ht'
      exact eraseSel_selectNodeAndChildren b _
    · rw [if_neg hfp] at ht'
      match hcs : processChildren cs p b with
      | none => rw [hcs] at ht'; exact absurd ht' (by simp)
      | some cs' =>
        rw [hcs] at ht'
        simp only [Option.some.injEq] at ht'
        cases ht'
        rw [eraseSel_updateParentSelectionState]
        have hmap := eraseSel_processChildren p b cs (fun c hc => ih c hc) cs' hcs
        simp only [eraseSel, eraseSelChildren_eq]
        rw [hmap]

/-- C10: the selection mutation `processNodeSelection` (with its descendant
propagation `selectNodeAndChildren` and the bottom-up re-aggregation it
triggers) changes only `Selected` flags: erasing every `Selected` flag after
the call gives exactly the erased original tree, so every node's name, path,
full path, level, child structure, leaf payload and `Expanded` flag are
untouched — whether or not the target path exists in the tree. -/
theorem c10_processNodeSelection_frame (t : PathNode) (targetPath : String)
    (b : Bool) :
    eraseSel ((processNodeSelection t targetPath b).getD t) = eraseSel t := by
  match h : processNodeSelection t targetPath b with
  | none => rfl
  | some t' => exact eraseSel_processNodeSelection targetPath b t t' h

/-! ## C2: search filtering versus selection aggregation -/

theorem FilterProjects_idem (projects : List CachedProject) (q : String) :
    FilterProjects (FilterProjects projects q) q = FilterProjects projects q := by
  unfold FilterProjects
  by_cases hq : q = ""
  · simp [hq]
  · simp only [hq, if_false, List.filter_filter, Bool.and_self]

/-- C2, counterexample: with records `a/x` (selected) and `a/y` (not
selected) and query `"x"`, the group `a` aggregates to `selected = true`,
while with no query the same group aggregates to `selected = false`: the
aggregate of a surviving structural node is NOT the same as without the
query, because `buildProjectPathTree` filters the records *before* building
the tree, so the hidden unselected leaf `a/y` is invisible to
`updateParentSelectionState`. -/
theorem c2_counterexample :
    ((buildProjectPathTree [⟨1, "x", "a/x"⟩, ⟨2, "y", "a/y"⟩]
        (fun i => i == 1) "x").bind
      (fun t => lookupPath t ["a"]) |>.map PathNode.selected) = some true ∧
    ((buildProjectPathTree [⟨1, "x", "a/x"⟩, ⟨2, "y", "a/y"⟩]
        (fun i => i == 1) "").bind
      (fun t => lookupPath t ["a"]) |>.map PathNode.selected) = some false := by
  constructor <;> decide

/-- C2, amended: selection aggregation is performed on the *pruned* tree.
`buildProjectPathTree` filters the flat records by the query before any
node is created, so building from the full record set with a query is the
same as building from the already-filtered record set: hidden non-matching
leaves (selected or not) contribute nothing to any aggregate. -/
theorem c2_aggregation_on_pruned_tree (projects : List CachedProject)
    (selm : Int → Bool) (q : String) :
    buildProjectPathTree projects selm q =
      buildProjectPathTree (FilterProjects projects q) selm q := by
  unfold buildProjectPathTree
  rw [FilterProjects_idem]

/-! ## C3: path collisions crash the build -/

/-- C3: a record whose path extends an existing leaf's path crashes the Go
build instead of completing with a warning.  Inserting `"a"` creates a leaf
whose `Children` map is `nil`; inserting `"a/b"` then walks into that leaf
and assigns into the nil map, which panics (modelled by `none`).  In the
opposite order the build survives: the later single-segment record *silently*
overwrites the structural node `a` (leaf wins, children discarded, no
warning is recorded anywhere — the code has no warning machinery at all). -/
theorem c3_collision_panics :
    (buildProjectPathTree [⟨1, "a", "a"⟩, ⟨2, "b", "a/b"⟩]
      (fun _ => false) "").isSome = false ∧
    ((buildProjectPathTree [⟨2, "b", "a/b"⟩, ⟨1, "a", "a"⟩]
        (fun _ => false) "").bind
      (fun t => lookupPath t ["a"]) |>.map
        (fun n => (n.isProject, n.children.length))) = some (true, 0) := by
  constructor <;> decide

/-! ## C4: empty path segments are not rejected -/

/-- C4, counterexample: the record with path `"a//b"` (an empty middle
segment) is not rejected and not skipped: the build succeeds and the record
contributes a leaf at full path `"a//b"`, reachable through a structural
node whose name is the empty string.  No `MalformedPath` error exists
anywhere in the code. -/
theorem c4_counterexample :
    ((buildProjectPathTree [⟨1, "b", "a//b"⟩] (fun _ => false) "").bind
      (fun t => lookupPath t ["a", "", "b"]) |>.map
        (fun n => (n.isProject, n.fullPath, n.name))) =
      some (true, "a//b", "b") ∧
    ((buildProjectPathTree [⟨1, "b", "a//b"⟩] (fun _ => false) "").bind
      (fun t => lookupPath t ["a", ""]) |>.map
        (fun n => (n.isProject, n.name))) = some (false, "") := by
  constructor <;> decide

/-! ## C5: order dependence of the build -/

/-- C5, counterexample: permuting the input changes the built tree.  With
records `a` (a single-segment leaf) and `a/b`, one order panics on the
leaf/structural collision while the other order builds a tree; and even for
two collision-free records `a/x`, `a/y`, the leaf payloads differ between
the two orders, because every leaf's `Project` pointer aliases the single
Go 1.21 range variable, which after the loop holds the *last* record. -/
theorem c5_counterexample :
    ((buildProjectPathTree [⟨1, "a", "a"⟩, ⟨2, "b", "a/b"⟩]
        (fun _ => false) "").isSome = false ∧
     (buildProjectPathTree [⟨2, "b", "a/b"⟩, ⟨1, "a", "a"⟩]
        (fun _ => false) "").isSome = true) ∧
    ((buildProjectPathTree [⟨1, "x", "a/x"⟩, ⟨2, "y", "a/y"⟩]
        (fun _ => false) "").bind
      (fun t => lookupPath t ["a", "x"]) |>.map PathNode.project) =
        some (some ⟨2, "y", "a/y"⟩) ∧
    ((buildProjectPathTree [⟨2, "y", "a/y"⟩, ⟨1, "x", "a/x"⟩]
        (fun _ => false) "").bind
      (fun t => lookupPath t ["a", "x"]) |>.map PathNode.project) =
        some (some ⟨1, "x", "a/x"⟩) := by
  refine ⟨⟨?_, ?_⟩, ?_, ?_⟩ <;> decide

/-! ## C6: persisted collapse versus search-forced expansion -/

/-- C6, counterexample: in the full-page settings render the persisted
expand state is applied *after* the build's internal
`EnsurePathVisibility`, so a group persisted as collapsed stays collapsed
in the response snapshot even though a retained search match (`a/x`,
matching the query `"x"`) lives below it. -/
theorem c6_counterexample :
    ((settingsFullPageTree [⟨1, "x", "a/x"⟩] (fun _ => false) "x"
        (fun p => if p = "a" then some false else none)).bind
      (fun t => lookupPath t ["a"]) |>.map
        (fun n => (n.isProject, n.expanded))) = some (false, false) ∧
    IsPathInSearch "a/x" "x" = true := by
  constructor <;> decide

/-! ## C9: toggling a structural node on and then off -/

/-- C9, counterexample: with leaves `a/x` (selected) and `a/y` (not
selected), toggling the group `a` to `true` and immediately back to `false`
does NOT restore the pre-toggle state: the leaf `a/x` ends up deselected
(`selectNodeAndChildren` overwrites the whole subtree in both directions). -/
theorem c9_counterexample :
    (let t0 := (buildProjectPathTree [⟨1, "x", "a/x"⟩, ⟨2, "y", "a/y"⟩]
        (fun i => i == 1) "").getD rootNode
     let t1 := (processNodeSelection t0 "a" true).getD t0
     let t2 := (processNodeSelection t1 "a" false).getD t1
     ((lookupPath t0 ["a", "x"]).map PathNode.selected,
      (lookupPath t2 ["a", "x"]).map PathNode.selected)) =
      (some true, some false) := by
  decide

/-! ## C1: tri-state aggregation checkers -/

mutual

def noSelectedChildless (n : PathNode) : Bool :=
  match n with
  | .mk _ _ _ ip _ cs _ _ s =>
    if ip then true
    else (if cs.isEmpty then !s else true) && noSelectedChildlessList cs
termination_by structural n

def noSelectedChildlessList (cs : List PathNode) : Bool :=
  match cs with
  | [] => true
  | c :: rest => noSelectedChildless c && noSelectedChildlessList rest
termination_by structural cs

end

mutual

def selAggOK (n : PathNode) : Bool :=
  match n with
  | .mk _ _ _ ip _ cs _ _ s =>
    if ip then true
    else (s == (!cs.isEmpty && cs.all PathNode.selected)) && selAggOKList cs
termination_by structural n

def selAggOKList (cs : List PathNode) : Bool :=
  match cs with
  | [] => true
  | c :: rest => selAggOK c && selAggOKList rest
termination_by structural cs

end

@[simp] theorem noSelectedChildlessList_eq (cs : List PathNode) :
    noSelectedChildlessList cs = cs.all noSelectedChildless := by
  induction cs with
  | nil => rfl
  | cons c rest ih => simp [noSelectedChildlessList, ih]

@[simp] theorem selAggOKList_eq (cs : List PathNode) :
    selAggOKList cs = cs.all selAggOK := by
  induction cs with
  | nil => rfl
  | cons c rest ih => simp [selAggOKList, ih]

theorem ups_snd_eq_selected (n : PathNode)
    (h : noSelectedChildless n = true) :
    (updateParentSelectionState n).2 = (updateParentSelectionState n).1.selected := by
  match n with
  | .mk nm p fp ip pr cs lv e s =>
    cases hip : ip with
    | true => simp [updateParentSelectionState]
    | false =>
      subst hip
      cases hcs : cs.isEmpty with
      | true =>
        rw [noSelectedChildless] at h
        simp only [if_false, Bool.false_eq_true, hcs, if_true] at h
        simp [updateParentSelectionState, hcs]
        have : s = false := by
          cases s
          · rfl
          · simp at h
        simp [this]
      | false => simp [updateParentSelectionState, hcs]

theorem listAllMap {α β : Type} (l : List α) (f : α → β) (p : β → Bool) :
    (l.map f).all p = l.all (fun a => p (f a)) := by
  induction l with
  | nil => rfl
  | cons a rest ih => simp only [List.map_cons, List.all_cons, ih]

theorem listAnyMap {α β : Type} (l : List α) (f : α → β) (p : β → Bool) :
    (l.map f).any p = l.any (fun a => p (f a)) := by
  induction l with
  | nil => rfl
  | cons a rest ih => simp only [List.map_cons, List.any_cons, ih]

theorem listAllCongr {α : Type} (l : List α) (f g : α → Bool)
    (h : ∀ a ∈ l, f a = g a) : l.all f = l.all g := by
  induction l with
  | nil => rfl
  | cons a rest ih =>
    simp only [List.all_cons, h a (List.mem_cons_self a rest)]
    rw [ih (fun b hb => h b (List.mem_cons_of_mem _ hb))]

theorem selAggOK_ups (n : PathNode) (h : noSelectedChildless n = true) :
    selAggOK (updateParentSelectionState n).1 = true := by
  induction n using PathNode.inductionOn with
  | h nm p fp ip pr cs lv e s ih =>
    cases hip : ip with
    | true =>
      subst hip
      simp [updateParentSelectionState, selAggOK]
    | false =>
      subst hip
      rw [noSelectedChildless] at h
      simp only [if_false, Bool.false_eq_true, Bool.and_eq_true,
        noSelectedChildlessList_eq, List.all_eq_true] at h
      obtain ⟨hhead, hchild⟩ := h
      cases hcs : cs.isEmpty with
      | true =>
        have hnil : cs = [] := List.isEmpty_iff.mp hcs
        subst hnil
        rw [hcs] at hhead
        simp only [if_true] at hhead
        have hs : s = false := by
          cases s
          · rfl
          · simp at hhead
        subst hs
        simp [updateParentSelectionState, selAggOK]
      | false =>
        simp only [updateParentSelectionState, hcs, Bool.false_eq_true,
          if_false, upsChildren_eq]
        rw [selAggOK]
        simp only [Bool.false_eq_true, if_false, Bool.and_eq_true, beq_iff_eq,
          selAggOKList_eq, List.all_eq_true, List.map_map, List.all_map,
          Function.comp]
        constructor
        · rw [listAllMap]
          have h3 : (List.map ((fun r => r.1) ∘ updateParentSelectionState) cs).isEmpty = false := by
            cases cs
            · simp at hcs
            · rfl
          rw [h3]
          simp only [Bool.not_false, Bool.true_and, Function.comp]
          exact listAllCongr cs _ _
            (fun c hc => ups_snd_eq_selected c (hchild c hc))
        · intro c hc
          exact ih c hc (hchild c hc)

/-- Structural induction principle for `GroupNode`. -/
theorem GroupNode.groupInductionOn {motive : GroupNode → Prop}
    (h : ∀ nm ps sg s, (∀ g ∈ sg, motive g) → motive (.mk nm ps sg s)) :
    ∀ g, motive g
  | .mk nm ps sg s =>
    h nm ps sg s (fun g hg =>
      have : sizeOf g < sizeOf (GroupNode.mk nm ps sg s) := by
        have h1 := List.sizeOf_lt_of_mem hg
        simp only [GroupNode.mk.sizeOf_spec]
        omega
      GroupNode.groupInductionOn h g)
termination_by g => sizeOf g

mutual

/-- Local correctness of the group flag actually computed by
`markSelectedProjectsAndGroups`: a group is selected iff it has at least one
direct project, all its direct projects are in the selected map, and all its
subgroups are selected. -/
def markOK (selm : Int → Bool) (g : GroupNode) : Bool :=
  match g with
  | .mk _ ps sg s =>
    (s == (decide (ps.length > 0) && ps.all (fun p => selm p.id) &&
      sg.all GroupNode.selected)) && markOKList selm sg
termination_by structural g

def markOKList (selm : Int → Bool) (gs : List GroupNode) : Bool :=
  match gs with
  | [] => true
  | g :: rest => markOK selm g && markOKList selm rest
termination_by structural gs

end

@[simp] theorem markOKList_eq (selm : Int → Bool) (gs : List GroupNode) :
    markOKList selm gs = gs.all (markOK selm) := by
  induction gs with
  | nil => rfl
  | cons g rest ih => simp [markOKList, ih]

theorem bool_absorb (x y b w : Bool) : (((x && y) && b) && (x || w)) = ((x && y) && b) := by
  revert x y b w; decide

theorem markOK_markGroup (selm : Int → Bool) (g : GroupNode) :
    markOK selm (markGroup g selm) = true := by
  induction g using GroupNode.groupInductionOn with
  | h nm ps sg s ih =>
    rw [markGroup]
    rw [markOK]
    simp only [markOKList_eq, markGroups_eq, Bool.and_eq_true, beq_iff_eq,
      List.all_eq_true, List.length_map]
    constructor
    · have hid : (ps.map (fun p =>
          if selm p.id then { p with selected := true } else p)).all
            (fun p => selm p.id) = ps.all (fun p => selm p.id) := by
        rw [listAllMap]
        exact listAllCongr ps _ _ (fun p _ => by
          cases h : selm p.id <;> simp [h])
      rw [hid]
      exact bool_absorb _ _ _ _
    · intro g' hg'
      simp only [List.mem_map] at hg'
      obtain ⟨g0, hg0, rfl⟩ := hg'
      exact ih g0 hg0

/-- C1, counterexample: `markSelectedProjectsAndGroups` (settings.go) on a
group `g` whose only child is the subgroup `s` (holding one selected
project): after aggregation `s.Selected = true` — every child of `g` is
selected — yet `g.Selected = false`, because `allProjectsSelected` is
initialised to `len(Projects) > 0`, so a group with no direct project is
never selected.  This contradicts the claimed "a group whose children are
only subgroups, all of them selected, reports selected = true". -/
theorem c1_counterexample :
    ((markSelectedProjectsAndGroups
        [GroupNode.mk "g" [] [GroupNode.mk "s" [⟨1, "p", false⟩] [] false] false]
        (fun i => i == 1)).map
      (fun g => (g.selected, g.subgroups.map GroupNode.selected))) =
      [(false, [true])] := by decide

/-- C1, amended: (1) for the path-tree aggregation
`updateParentSelectionState`, on any tree whose childless structural nodes
are unselected (as built trees are), every structural node ends up with
`selected = true` iff it has at least one child and all children are
selected (`selAggOK`), and in particular a childless group reports
`selected = false`; (2) for the group-tree aggregation
`markSelectedProjectsAndGroups`, a group is selected iff it has at least one
DIRECT project, all its direct projects are selected and all its subgroups
are selected (`markOK`) — a group whose children are only subgroups is
never reported selected. -/
theorem c1_amended_selected_iff :
    (∀ t, noSelectedChildless t = true →
      selAggOK (updateParentSelectionState t).1 = true) ∧
    ∀ gs selm, (markSelectedProjectsAndGroups gs selm).all (markOK selm) = true := by
  constructor
  · exact fun t h => selAggOK_ups t h
  · intro gs selm
    rw [markSelectedProjectsAndGroups, markGroups_eq]
    simp only [List.all_eq_true, List.mem_map]
    rintro g ⟨g0, hg0, rfl⟩
    exact markOK_markGroup selm g0

/-- Witness for `c1_amended_selected_iff`: a concrete two-level tree
discharging the hypothesis. -/
theorem c1_witness :
    noSelectedChildless
      (.mk "Root" "" "" false none
        [.mk "a" "a" "a" false none
          [.mk "x" "x" "a/x" true none [] 2 false true] 1 true false]
        0 true false) = true ∧
    selAggOK (updateParentSelectionState
      (.mk "Root" "" "" false none
        [.mk "a" "a" "a" false none
          [.mk "x" "x" "a/x" true none [] 2 false true] 1 true false]
        0 true false)).1 = true :=
  ⟨by decide, c1_amended_selected_iff.1 _ (by decide)⟩

/-! ## C6: what EnsurePathVisibility actually forces -/

mutual

/-- "Some node in this subtree (itself included) has a full path matching
the query" — the notion of match used by `EnsurePathVisibility`. -/
def hasMatchNode (q : String) (n : PathNode) : Bool :=
  match n with
  | .mk _ _ fp _ _ cs _ _ _ => IsPathInSearch fp q || hasMatchList q cs
termination_by structural n

def hasMatchList (q : String) (cs : List PathNode) : Bool :=
  match cs with
  | [] => false
  | c :: rest => hasMatchNode q c || hasMatchList q rest
termination_by structural cs

end

@[simp] theorem hasMatchList_eq (q : String) (cs : List PathNode) :
    hasMatchList q cs = cs.any (hasMatchNode q) := by
  induction cs with
  | nil => rfl
  | cons c rest ih => simp [hasMatchList, ih]

mutual

/-- The guarantee `EnsurePathVisibility` establishes: every structural node
whose subtree contains a match (or which matches itself) is expanded, on
every path of non-matching ancestors (the Go recursion stops at the first
matching node, so deeper nodes are only reachable while ancestors do not
match). -/
def checkForced (q : String) (n : PathNode) : Bool :=
  match n with
  | .mk _ _ fp ip _ cs _ e _ =>
    (if ip = false ∧ (IsPathInSearch fp q || hasMatchList q cs) = true
      then e else true) &&
    (if IsPathInSearch fp q then true else checkForcedList q cs)
termination_by structural n

def checkForcedList (q : String) (cs : List PathNode) : Bool :=
  match cs with
  | [] => true
  | c :: rest => checkForced q c && checkForcedList q rest
termination_by structural cs

end

@[simp] theorem checkForcedList_eq (q : String) (cs : List PathNode) :
    checkForcedList q cs = cs.all (checkForced q) := by
  induction cs with
  | nil => rfl
  | cons c rest ih => simp [checkForcedList, ih]

theorem listAnyCongr {α : Type} (l : List α) (f g : α → Bool)
    (h : ∀ a ∈ l, f a = g a) : l.any f = l.any g := by
  induction l with
  | nil => rfl
  | cons a rest ih =>
    simp only [List.any_cons, h a (List.mem_cons_self a rest)]
    rw [ih (fun b hb => h b (List.mem_cons_of_mem _ hb))]

/-- The boolean returned by `EnsurePathVisibility` is exactly "this subtree
contains a matching full path". -/
theorem ensure_snd_eq_hasMatch (q : String) (n : PathNode) :
    (EnsurePathVisibility n q).2 = hasMatchNode q n := by
  induction n using PathNode.inductionOn with
  | h nm p fp ip pr cs lv e s ih =>
    rw [EnsurePathVisibility]
    by_cases hq : q ≠ "" ∧ IsPathInSearch fp q = false
    · rw [if_pos hq]
      simp only [ensureChildren_eq, hasMatchNode, hq.2, Bool.false_or,
        hasMatchList_eq, listAnyMap]
      exact listAnyCongr cs _ _ (fun c hc => ih c hc)
    · rw [if_neg hq]
      by_cases hip : ip = false
      · rw [if_pos hip]
        simp only [hasMatchNode]
        rcases Decidable.not_and_iff_or_not.mp hq with h1 | h2
        · have : q = "" := by
            by_cases hqq : q = ""
            · exact hqq
            · exact absurd hqq h1
          simp [this, IsPathInSearch]
        · have : IsPathInSearch fp q = true := by
            cases hmm : IsPathInSearch fp q
            · exact absurd hmm h2
            · rfl
          simp [this]
      · rw [if_neg hip]
        simp only [hasMatchNode]
        rcases Decidable.not_and_iff_or_not.mp hq with h1 | h2
        · have hqq : q = "" := by
            by_cases hqq : q = ""
            · exact hqq
            · exact absurd hqq h1
          simp [hqq, IsPathInSearch]
        · have : IsPathInSearch fp q = true := by
            cases hmm : IsPathInSearch fp q
            · exact absurd hmm h2
            · rfl
          simp [this]

/-- `EnsurePathVisibility` does not change which subtrees contain matches
(it only flips `Expanded` flags). -/
theorem hasMatch_ensure (q : String) (n : PathNode) :
    hasMatchNode q (EnsurePathVisibility n q).1 = hasMatchNode q n := by
  induction n using PathNode.inductionOn with
  | h nm p fp ip pr cs lv e s ih =>
    rw [EnsurePathVisibility]
    by_cases hq : q ≠ "" ∧ IsPathInSearch fp q = false
    · rw [if_pos hq]
      simp only [ensureChildren_eq, hasMatchNode, hasMatchList_eq,
        List.map_map, listAnyMap, Function.comp]
      have : cs.any (fun c => hasMatchNode q (EnsurePathVisibility c q).1) =
          cs.any (hasMatchNode q) :=
        listAnyCongr cs _ _ (fun c hc => ih c hc)
      rw [this]
    · rw [if_neg hq]
      by_cases hip : ip = false
      · rw [if_pos hip]; rw [hasMatchNode, hasMatchNode]
      · rw [if_neg hip]

/-- On every node `EnsurePathVisibility` is applied to, the forced-expansion
guarantee `checkForced` holds afterwards. -/
theorem checkForced_ensure (q : String) (n : PathNode) :
    checkForced q (EnsurePathVisibility n q).1 = true := by
  induction n using PathNode.inductionOn with
  | h nm p fp ip pr cs lv e s ih =>
    rw [EnsurePathVisibility]
    by_cases hq : q ≠ "" ∧ IsPathInSearch fp q = false
    · rw [if_pos hq]
      rw [checkForced]
      simp only [ensureChildren_eq, List.map_map, hq.2, Bool.false_or,
        checkForcedList_eq, listAllMap, listAnyMap, hasMatchList_eq,
        Bool.false_eq_true, if_false, Function.comp, Bool.and_eq_true,
        List.all_eq_true]
      constructor
      · have hmm : cs.any (fun c => hasMatchNode q (EnsurePathVisibility c q).1) =
            cs.any (fun c => (EnsurePathVisibility c q).2) := by
          refine listAnyCongr cs _ _ (fun c hc => ?_)
          rw [hasMatch_ensure, ensure_snd_eq_hasMatch]
        by_cases hany : cs.any (fun c => (EnsurePathVisibility c q).2) = true
        · simp [hany, hmm]
        · have hany' : cs.any (fun c => (EnsurePathVisibility c q).2) = false := by
            cases hx : cs.any (fun c => (EnsurePathVisibility c q).2)
            · rfl
            · exact absurd hx hany
          simp [hany', hmm]
      · intro c hc
        exact ih c hc
    · rw [if_neg hq]
      have hpath : IsPathInSearch fp q = true := by
        rcases Decidable.not_and_iff_or_not.mp hq with h1 | h2
        · have hqq : q = "" := by
            by_cases hx : q = ""
            · exact hx
            · exact absurd hx h1
          simp [hqq, IsPathInSearch]
        · cases hx : IsPathInSearch fp q
          · exact absurd hx h2
          · rfl
      by_cases hip : ip = false
      · rw [if_pos hip]
        rw [checkForced]
        simp [hpath, hip]
      · rw [if_neg hip]
        rw [checkForced]
        have hip' : ip = true := by
          cases ip
          · exact absurd rfl hip
          · rfl
        simp [hpath, hip']

/-- C6, amended: only in the HTMX partial-render flow — where
`EnsurePathVisibility` runs *after* `applyExpandedState` — does the
search-forced expansion override the persisted collapse state, and it does
so exactly for the nodes the Go recursion reaches: every structural node,
all of whose proper ancestors fail the query match, whose subtree contains
a node with a matching full path (itself included) is `expanded = true` in
the response snapshot, whatever the persisted mapping said.  (Descendants
of a node that itself matches are skipped by the recursion, and the
full-page flow applies the persisted state last, `c6_counterexample`.) -/
theorem c6_amended_forced_expansion (projects : List CachedProject)
    (selm : Int → Bool) (q : String) (m : String → Option Bool) :
    Option.all (checkForced q) (settingsHtmxSearchTree projects selm q m) = true := by
  rw [settingsHtmxSearchTree]
  match buildProjectPathTree projects selm q with
  | none => rfl
  | some t => exact checkForced_ensure q (applyExpandedState t m)

/-! ## C4: empty segments are ordinary segments -/

/-- A path has an empty segment iff Go `strings.Split(path, "/")` yields an
empty part (consecutive slashes, or a leading/trailing slash, or the empty
path). -/
def hasEmptySegment (s : String) : Bool := (splitSlash s).contains ""

/-- The full path the builder accumulates for the last of `parts`, starting
from accumulator `fpAcc` at segment index `i`. -/
def finalFullPath (fpAcc : String) (i : Nat) : List String → String
  | [] => fpAcc
  | part :: rest =>
    finalFullPath (if i = 0 then part else fpAcc ++ "/" ++ part) (i + 1) rest

/-- Char-level rejoining of split segments. -/
def tailJoin : List (List Char) → List Char
  | [] => []
  | seg :: rest => '/' :: seg ++ tailJoin rest

theorem splitChar_ne_nil (sep : Char) (cs : List Char) :
    splitChar sep cs ≠ [] := by
  cases cs with
  | nil => simp [splitChar]
  | cons c cs =>
    rw [splitChar]
    match splitChar sep cs with
    | [] => simp
    | s :: ss =>
      by_cases h : c = sep
      · simp [h]
      · simp [h]

theorem splitChar_join (cs : List Char) :
    ∀ s ss, splitChar '/' cs = s :: ss → s ++ tailJoin ss = cs := by
  induction cs with
  | nil =>
    intro s ss h
    rw [splitChar] at h
    cases h
    rfl
  | cons c cs ih =>
    intro s ss h
    rw [splitChar] at h
    match hs : splitChar '/' cs with
    | [] => exact absurd hs (splitChar_ne_nil _ cs)
    | s' :: ss' =>
      rw [hs] at h
      dsimp only at h
      by_cases hc : c = '/'
      · rw [if_pos hc] at h
        cases h
        rw [tailJoin]
        simp only [List.nil_append, List.cons_append]
        rw [ih s' ss' hs, hc]
      · rw [if_neg hc] at h
        injection h with h1 h2
        subst h1
        subst h2
        rw [List.cons_append]
        rw [ih s' ss' hs]

theorem asString_append_slash (a b : List Char) :
    List.asString a ++ "/" ++ List.asString b = List.asString (a ++ '/' :: b) := by
  have h1 : List.asString a ++ "/" = List.asString (a ++ ['/']) := rfl
  rw [h1]
  have h2 : List.asString (a ++ ['/']) ++ List.asString b =
      List.asString ((a ++ ['/']) ++ b) := rfl
  rw [h2, List.append_assoc]
  rfl

theorem finalFullPath_tailJoin (ss : List (List Char)) :
    ∀ (acc : List Char) (i : Nat), i ≠ 0 →
    finalFullPath (List.asString acc) i (ss.map List.asString) =
      List.asString (acc ++ tailJoin ss) := by
  induction ss with
  | nil =>
    intro acc i hi
    simp [finalFullPath, tailJoin]
  | cons seg rest ih =>
    intro acc i hi
    rw [List.map_cons, finalFullPath, if_neg hi, asString_append_slash]
    rw [ih (acc ++ '/' :: seg) (i + 1) (by omega)]
    rw [tailJoin]
    rw [List.append_assoc]

theorem finalFullPath_splitSlash (s : String) :
    finalFullPath "" 0 (splitSlash s) = s := by
  rw [splitSlash]
  match hs : splitChar '/' s.data with
  | [] => exact absurd hs (splitChar_ne_nil _ _)
  | seg :: ss =>
    rw [List.map_cons, finalFullPath, if_pos rfl]
    rw [finalFullPath_tailJoin ss seg 1 (by omega)]
    rw [splitChar_join s.data seg ss hs]
    rfl

/-- Inserting a record below a childless structural node always succeeds
and puts the record's leaf at the end of its segment chain. -/
theorem insertParts_fresh (selm : Int → Bool) (proj : CachedProject) :
    ∀ (parts : List String), parts ≠ [] →
    ∀ (nm p fp : String) (pr : Option CachedProject) (lv : Nat) (e s : Bool)
      (fpAcc : String) (i : Nat),
    ∃ cur', insertParts selm proj (.mk nm p fp false pr [] lv e s) fpAcc i parts =
        some cur' ∧
      cur'.name = nm ∧
      (lookupPath cur' parts).map (fun n => (n.isProject, n.fullPath)) =
        some (true, finalFullPath fpAcc i parts) := by
  intro parts
  induction parts with
  | nil => intro h; exact absurd rfl h
  | cons part rest ih =>
    intro _ nm p fp pr lv e s fpAcc i
    cases hrest : rest.isEmpty with
    | true =>
      have hr : rest = [] := List.isEmpty_iff.mp hrest
      subst hr
      refine ⟨PathNode.mk nm p fp false pr
        [leafNode part (if i = 0 then part else fpAcc ++ "/" ++ part) i proj selm]
        lv e s, ?_, rfl, ?_⟩
      · rw [insertParts]
        simp only [Bool.false_eq_true, if_false, List.isEmpty_nil, if_true]
        rfl
      · simp [lookupPath, lookupChild, leafNode, finalFullPath]
    | false =>
      have hr : rest ≠ [] := by
        intro hx; subst hx; simp at hrest
      obtain ⟨c', hins, hname, hlook⟩ :=
        ih hr part part (if i = 0 then part else fpAcc ++ "/" ++ part) none
          (i + 1) (decide (i < 1)) false
          (if i = 0 then part else fpAcc ++ "/" ++ part) (i + 1)
      refine ⟨PathNode.mk nm p fp false pr [c'] lv e s, ?_, rfl, ?_⟩
      · rw [insertParts]
        simp only [Bool.false_eq_true, if_false, hrest]
        rw [lookupChild]
        simp only [Option.getD_none, structNode]
        rw [hins]
        rfl
      · rw [lookupPath]
        simp only [PathNode.children_mk]
        rw [lookupChild, if_pos hname]
        dsimp only
        rw [hlook, finalFullPath]

/-- The observation used for C4: is the node a project, and its full path. -/
def nodeKind (n : PathNode) : Bool × String := (n.isProject, n.fullPath)

theorem name_eraseSel (n : PathNode) : (eraseSel n).name = n.name := by
  cases n; rfl

theorem nodeKind_eraseSel (n : PathNode) : nodeKind (eraseSel n) = nodeKind n := by
  cases n; rfl

theorem name_aliasPayloads (l : Option CachedProject) (n : PathNode) :
    (aliasPayloads l n).name = n.name := by
  cases n; rfl

theorem nodeKind_aliasPayloads (l : Option CachedProject) (n : PathNode) :
    nodeKind (aliasPayloads l n) = nodeKind n := by
  cases n; rfl

theorem lookupChild_eraseSel (k : String) (cs : List PathNode) :
    lookupChild k (cs.map eraseSel) = (lookupChild k cs).map eraseSel := by
  induction cs with
  | nil => rfl
  | cons c rest ih =>
    rw [List.map_cons, lookupChild, lookupChild, name_eraseSel]
    by_cases h : c.name = k
    · rw [if_pos h, if_pos h]; rfl
    · rw [if_neg h, if_neg h, ih]

theorem lookupChild_aliasPayloads (l : Option CachedProject) (k : String)
    (cs : List PathNode) :
    lookupChild k (cs.map (aliasPayloads l)) =
      (lookupChild k cs).map (aliasPayloads l) := by
  induction cs with
  | nil => rfl
  | cons c rest ih =>
    rw [List.map_cons, lookupChild, lookupChild, name_aliasPayloads]
    by_cases h : c.name = k
    · rw [if_pos h, if_pos h]; rfl
    · rw [if_neg h, if_neg h, ih]

theorem lookupPath_eraseSel (segs : List String) :
    ∀ t, lookupPath (eraseSel t) segs = (lookupPath t segs).map eraseSel := by
  induction segs with
  | nil => intro t; rfl
  | cons k rest ih =>
    intro t
    match t with
    | .mk nm p fp ip pr cs lv e s =>
      rw [lookupPath, lookupPath]
      simp only [eraseSel, PathNode.children_mk, eraseSelChildren_eq]
      rw [lookupChild_eraseSel]
      match lookupChild k cs with
      | none => rfl
      | some c =>
        simp only [Option.map_some']
        exact ih c

theorem lookupPath_aliasPayloads (l : Option CachedProject) (segs : List String) :
    ∀ t, lookupPath (aliasPayloads l t) segs =
      (lookupPath t segs).map (aliasPayloads l) := by
  induction segs with
  | nil => intro t; rfl
  | cons k rest ih =>
    intro t
    match t with
    | .mk nm p fp ip pr cs lv e s =>
      rw [lookupPath, lookupPath]
      simp only [aliasPayloads, PathNode.children_mk, aliasChildren_eq]
      rw [lookupChild_aliasPayloads]
      match lookupChild k cs with
      | none => rfl
      | some c =>
        simp only [Option.map_some']
        exact ih c

theorem lookup_nodeKind_eraseSel_inv (segs : List String) (t : PathNode) :
    (lookupPath (eraseSel t) segs).map nodeKind =
      (lookupPath t segs).map nodeKind := by
  rw [lookupPath_eraseSel, Option.map_map]
  exact congrArg (fun f => Option.map f (lookupPath t segs))
    (funext fun n => nodeKind_eraseSel n)

theorem lookup_nodeKind_ups (segs : List String) (t : PathNode) :
    (lookupPath (updateParentSelectionState t).1 segs).map nodeKind =
      (lookupPath t segs).map nodeKind := by
  have h1 := lookup_nodeKind_eraseSel_inv segs (updateParentSelectionState t).1
  rw [eraseSel_updateParentSelectionState] at h1
  rw [← h1]
  exact lookup_nodeKind_eraseSel_inv segs t

theorem lookup_nodeKind_alias (l : Option CachedProject) (segs : List String)
    (t : PathNode) :
    (lookupPath (aliasPayloads l t) segs).map nodeKind =
      (lookupPath t segs).map nodeKind := by
  rw [lookupPath_aliasPayloads, Option.map_map]
  exact congrArg (fun f => Option.map f (lookupPath t segs))
    (funext fun n => nodeKind_aliasPayloads l n)

theorem splitSlash_ne_nil (s : String) : splitSlash s ≠ [] := by
  rw [splitSlash]
  intro h
  exact splitChar_ne_nil '/' s.data (List.map_eq_nil_iff.mp h)

/-- C4, amended: a record whose path contains an empty segment is NOT
rejected: there is no `MalformedPath` error anywhere; the builder treats
the empty string as an ordinary segment, the build succeeds and the
record's leaf sits at the record's full path (each empty segment simply
becomes an empty-named structural node on the way). -/
theorem c4_amended_empty_segment_kept (p : CachedProject) (selm : Int → Bool)
    (h : hasEmptySegment p.pathWithNamespace = true) :
    ((buildProjectPathTree [p] selm "").bind
      (fun t => lookupPath t (splitSlash p.pathWithNamespace))).map nodeKind =
      some (true, p.pathWithNamespace) := by
  obtain ⟨cur', hins, hname, hlook⟩ :=
    insertParts_fresh selm p (splitSlash p.pathWithNamespace)
      (splitSlash_ne_nil _) "Root" "" "" none 0 true false "" 0
  rw [buildProjectPathTree]
  have hfil : FilterProjects [p] "" = [p] := by rw [FilterProjects, if_pos rfl]
  rw [hfil]
  simp only [List.foldl_cons, List.foldl_nil, Option.some_bind]
  simp only [insertProject, rootNode]
  rw [hins]
  simp only [ne_eq, not_true_eq_false, Bool.false_eq_true, if_false,
    Option.bind_some, reduceIte]
  rw [Option.some_bind]
  rw [lookup_nodeKind_ups, lookup_nodeKind_alias]
  have hlook' : (lookupPath cur' (splitSlash p.pathWithNamespace)).map nodeKind =
      some (true, finalFullPath "" 0 (splitSlash p.pathWithNamespace)) := hlook
  rw [hlook', finalFullPath_splitSlash]

/-- Witness for `c4_amended_empty_segment_kept` at the record `a//b`. -/
theorem c4_witness :
    hasEmptySegment "a//b" = true ∧
    ((buildProjectPathTree [⟨1, "b", "a//b"⟩] (fun _ => false) "").bind
      (fun t => lookupPath t (splitSlash "a//b"))).map nodeKind =
      some (true, "a//b") :=
  ⟨by decide, c4_amended_empty_segment_kept ⟨1, "b", "a//b"⟩ (fun _ => false)
    (by decide)⟩

/-! ## C9: machinery for the toggle round trip -/

/-- The tree as left behind by a `processNodeSelection` call (the Go callers
discard the returned boolean; a `false` return means the tree is unchanged). -/
def toggleSelection (t : PathNode) (path : String) (selected : Bool) : PathNode :=
  (processNodeSelection t path selected).getD t

mutual

/-- Aggregate-consistency, as established by a fresh build: every non-empty
structural node's flag equals "all children selected", childless structural
nodes are unselected, and projects are childless. -/
def selConsistent (n : PathNode) : Bool :=
  match n with
  | .mk _ _ _ ip _ cs _ _ s =>
    (if ip then cs.isEmpty
     else if cs.isEmpty then !s else s == cs.all PathNode.selected) &&
    selConsistentList cs
termination_by structural n

def selConsistentList (cs : List PathNode) : Bool :=
  match cs with
  | [] => true
  | c :: rest => selConsistent c && selConsistentList rest
termination_by structural cs

end

mutual

/-- Every node of the subtree (the node itself included) is unselected. -/
def allUnselected (n : PathNode) : Bool :=
  match n with
  | .mk _ _ _ _ _ cs _ _ s => !s && allUnselectedList cs
termination_by structural n

def allUnselectedList (cs : List PathNode) : Bool :=
  match cs with
  | [] => true
  | c :: rest => allUnselected c && allUnselectedList rest
termination_by structural cs

end

mutual

/-- Every node of the tree whose full path is the given one roots an
entirely unselected subtree. -/
def allUnselAtPath (path : String) (n : PathNode) : Bool :=
  match n with
  | .mk _ _ fp _ _ cs _ _ _ =>
    (if fp = path then allUnselected (n) else true) && allUnselAtPathList path cs
termination_by structural n

def allUnselAtPathList (path : String) (cs : List PathNode) : Bool :=
  match cs with
  | [] => true
  | c :: rest => allUnselAtPath path c && allUnselAtPathList path rest
termination_by structural cs

end

mutual

/-- Whether `processNodeSelection` can find the target: the node itself has
the path, or it is reachable through non-project children. -/
def pathFindable (path : String) (n : PathNode) : Bool :=
  match n with
  | .mk _ _ fp _ _ cs _ _ _ => fp == path || pathFindableList path cs
termination_by structural n

def pathFindableList (path : String) (cs : List PathNode) : Bool :=
  match cs with
  | [] => false
  | c :: rest => (!c.isProject && pathFindable path c) || pathFindableList path rest
termination_by structural cs

end

@[simp] theorem selConsistentList_eq (cs : List PathNode) :
    selConsistentList cs = cs.all selConsistent := by
  induction cs with
  | nil => rfl
  | cons c rest ih => simp [selConsistentList, ih]

@[simp] theorem allUnselectedList_eq (cs : List PathNode) :
    allUnselectedList cs = cs.all allUnselected := by
  induction cs with
  | nil => rfl
  | cons c rest ih => simp [allUnselectedList, ih]

@[simp] theorem allUnselAtPathList_eq (path : String) (cs : List PathNode) :
    allUnselAtPathList path cs = cs.all (allUnselAtPath path) := by
  induction cs with
  | nil => rfl
  | cons c rest ih => simp [allUnselAtPathList, ih]

theorem ups_fixed (n : PathNode) (h : selConsistent n = true) :
    updateParentSelectionState n = (n, n.selected) := by
  induction n using PathNode.inductionOn with
  | h nm p fp ip pr cs lv e s ih =>
    rw [selConsistent] at h
    simp only [Bool.and_eq_true, selConsistentList_eq, List.all_eq_true] at h
    obtain ⟨hhead, hchild⟩ := h
    cases ip with
    | true => rw [updateParentSelectionState]; simp
    | false =>
      cases hcs : cs.isEmpty with
      | true =>
        have hnil : cs = [] := List.isEmpty_iff.mp hcs
        subst hnil
        simp only [if_false, Bool.false_eq_true, List.isEmpty_nil, if_true] at hhead
        have hs : s = false := by
          cases s
          · rfl
          · simp at hhead
        subst hs
        rw [updateParentSelectionState]
        simp
      | false =>
        simp only [if_false, Bool.false_eq_true, hcs] at hhead
        rw [updateParentSelectionState]
        simp only [Bool.false_eq_true, if_false, hcs, upsChildren_eq]
        have hmap : cs.map updateParentSelectionState =
            cs.map (fun c => (c, c.selected)) :=
          List.map_congr_left (fun c hc => ih c hc (hchild c hc))
        rw [hmap]
        have h1 : (cs.map (fun c => (c, c.selected))).all (fun r => r.2) =
            cs.all PathNode.selected := by
          rw [listAllMap]
        have h2 : (cs.map (fun c => (c, c.selected))).map (fun r => r.1) = cs := by
          rw [List.map_map]
          rw [show ((fun r : PathNode × Bool => r.1) ∘ fun c : PathNode =>
            (c, c.selected)) = id from rfl]
          exact List.map_id cs
        rw [h1, h2]
        have hs : s = cs.all PathNode.selected := by
          simpa using hhead
        rw [← hs]
        simp

theorem ups_idem (n : PathNode) :
    updateParentSelectionState (updateParentSelectionState n).1 =
      updateParentSelectionState n := by
  induction n using PathNode.inductionOn with
  | h nm p fp ip pr cs lv e s ih =>
    cases hip : ip with
    | true =>
      rw [updateParentSelectionState]
      simp
      rw [updateParentSelectionState]
      simp
    | false =>
      cases hcs : cs.isEmpty with
      | true =>
        rw [updateParentSelectionState]
        simp only [Bool.false_eq_true, if_false, hcs, if_true]
        rw [updateParentSelectionState]
        simp only [Bool.false_eq_true, if_false, hcs, if_true]
      | false =>
        rw [updateParentSelectionState]
        simp only [Bool.false_eq_true, if_false, hcs, upsChildren_eq]
        rw [updateParentSelectionState]
        have hcond : (List.map ((fun r : PathNode × Bool => r.1) ∘
            updateParentSelectionState) cs).isEmpty = false := by
          cases cs
          · simp at hcs
          · rfl
        simp only [PathNode.children_mk, upsChildren_eq, List.map_map, hcond,
          Bool.false_eq_true, if_false]
        have e1 : List.map ((fun r : PathNode × Bool => r.1) ∘
            updateParentSelectionState ∘ (fun r : PathNode × Bool => r.1) ∘
            updateParentSelectionState) cs =
            List.map ((fun r : PathNode × Bool => r.1) ∘
              updateParentSelectionState) cs :=
          List.map_congr_left (fun c hc => congrArg Prod.fst (ih c hc))
        have e2 : List.map (updateParentSelectionState ∘
            (fun r : PathNode × Bool => r.1) ∘ updateParentSelectionState) cs =
            List.map updateParentSelectionState cs :=
          List.map_congr_left (fun c hc => ih c hc)
        rw [e1, e2]

theorem selectAll_selectAll (b b' : Bool) (n : PathNode) :
    selectNodeAndChildren (selectNodeAndChildren n b) b' =
      selectNodeAndChildren n b' := by
  induction n using PathNode.inductionOn with
  | h nm p fp ip pr cs lv e s ih =>
    rw [selectNodeAndChildren, selectNodeAndChildren, selectNodeAndChildren]
    simp only [selectChildren_eq, List.map_map]
    congr 1
    exact List.map_congr_left (fun c hc => ih c hc)

theorem selectAll_false_fixed (n : PathNode) (h : allUnselected n = true) :
    selectNodeAndChildren n false = n := by
  induction n using PathNode.inductionOn with
  | h nm p fp ip pr cs lv e s ih =>
    rw [allUnselected] at h
    simp only [Bool.and_eq_true, allUnselectedList_eq, List.all_eq_true,
      Bool.not_eq_eq_eq_not, Bool.not_true] at h
    obtain ⟨hs, hchild⟩ := h
    rw [selectNodeAndChildren]
    simp only [selectChildren_eq]
    have hmap : cs.map (fun c => selectNodeAndChildren c false) = cs := by
      have hx := List.map_congr_left
        (fun c hc => ih c hc (hchild c hc))
      rw [hx]
      simp
    rw [hmap]
    cases s
    · rfl
    · simp at hs

theorem selectAll_congr_eraseSel (b : Bool) (x y : PathNode)
    (h : eraseSel x = eraseSel y) :
    selectNodeAndChildren x b = selectNodeAndChildren y b := by
  induction x using PathNode.inductionOn generalizing y with
  | h nm p fp ip pr cs lv e s ih =>
    match y with
    | .mk nm' p' fp' ip' pr' cs' lv' e' s' =>
      rw [eraseSel, eraseSel] at h
      simp only [PathNode.mk.injEq, eraseSelChildren_eq] at h
      obtain ⟨h1, h2, h3, h4, h5, h6, h7, h8, _⟩ := h
      subst h1; subst h2; subst h3; subst h4; subst h5; subst h7; subst h8
      rw [selectNodeAndChildren, selectNodeAndChildren]
      simp only [selectChildren_eq, PathNode.mk.injEq, true_and, and_true]
      clear y
      induction cs generalizing cs' with
      | nil =>
        cases cs' with
        | nil => rfl
        | cons d ds => simp at h6
      | cons c rest ihl =>
        cases cs' with
        | nil => simp at h6
        | cons d ds =>
          simp only [List.map_cons, List.cons.injEq] at h6 ⊢
          exact ⟨ih c (List.mem_cons_self c rest) d h6.1,
            ihl (fun x hx => ih x (List.mem_cons_of_mem _ hx)) ds h6.2⟩

theorem processChildren_isSome (path : String) (b : Bool) (cs : List PathNode)
    (hnode : ∀ c ∈ cs, (processNodeSelection c path b).isSome =
      pathFindable path c) :
    (processChildren cs path b).isSome = pathFindableList path cs := by
  induction cs with
  | nil => rfl
  | cons c rest ih =>
    rw [processChildren, pathFindableList]
    by_cases hip : c.isProject = true
    · simp only [hip, if_true, Bool.not_true, Bool.false_and, Bool.false_or]
      rw [Option.isSome_map']
      exact ih (fun d hd => hnode d (List.mem_cons_of_mem _ hd))
    · have hip' : c.isProject = false := by
        cases hx : c.isProject
        · rfl
        · exact absurd hx hip
      rw [if_neg hip]
      match hc : processNodeSelection c path b with
      | some c' =>
        have := hnode c (List.mem_cons_self c rest)
        rw [hc] at this
        simp only [Option.isSome_some] at this
        simp [hip', ← this]
      | none =>
        have := hnode c (List.mem_cons_self c rest)
        rw [hc] at this
        simp only [Option.isSome_none] at this
        rw [Option.isSome_map']
        rw [ih (fun d hd => hnode d (List.mem_cons_of_mem _ hd))]
        simp [hip', ← this]

theorem process_isSome (path : String) (b : Bool) (n : PathNode) :
    (processNodeSelection n path b).isSome = pathFindable path n := by
  induction n using PathNode.inductionOn with
  | h nm p fp ip pr cs lv e s ih =>
    rw [processNodeSelection, pathFindable]
    by_cases hfp : fp = path
    · simp [hfp]
    · rw [if_neg hfp]
      have hbeq : (fp == path) = false := by
        simp [hfp]
      rw [hbeq, Bool.false_or]
      rw [← processChildren_isSome path b cs (fun c hc => ih c hc)]
      match processChildren cs path b with
      | some cs' => rfl
      | none => rfl

theorem fullPath_eraseSel (n : PathNode) : (eraseSel n).fullPath = n.fullPath := by
  cases n; rfl

theorem isProject_eraseSel (n : PathNode) : (eraseSel n).isProject = n.isProject := by
  cases n; rfl

/-- Shape of a successful `processChildren` call: the walk skipped a prefix
of projects and not-found children, modified the first findable structural
child and left the rest untouched. -/
theorem processChildren_shape (path : String) (b : Bool) :
    ∀ (cs cs' : List PathNode), processChildren cs path b = some cs' →
    ∃ pre d post d', cs = pre ++ d :: post ∧ cs' = pre ++ d' :: post ∧
      d.isProject = false ∧ processNodeSelection d path b = some d' ∧
      ∀ x ∈ pre, x.isProject = true ∨ processNodeSelection x path b = none := by
  intro cs
  induction cs with
  | nil => intro cs' h; rw [processChildren] at h; exact absurd h (by simp)
  | cons c rest ih =>
    intro cs' h
    rw [processChildren] at h
    by_cases hip : c.isProject = true
    · rw [if_pos hip] at h
      match hr : processChildren rest path b with
      | none => rw [hr] at h; exact absurd h (by simp)
      | some rs =>
        rw [hr] at h
        simp only [Option.map_some', Option.some.injEq] at h
        subst h
        obtain ⟨pre, d, post, d', hcs, hcs', hdp, hd, hpre⟩ := ih rs hr
        exact ⟨c :: pre, d, post, d', by rw [hcs]; rfl, by rw [hcs']; rfl, hdp, hd,
          fun x hx => by
            rcases List.mem_cons.mp hx with rfl | hx'
            · exact Or.inl hip
            · exact hpre x hx'⟩
    · rw [if_neg hip] at h
      have hip' : c.isProject = false := by
        cases hx : c.isProject
        · rfl
        · exact absurd hx hip
      match hc : processNodeSelection c path b with
      | some c' =>
        rw [hc] at h
        simp only [Option.some.injEq] at h
        subst h
        exact ⟨[], c, rest, c', rfl, rfl, hip', hc, by simp⟩
      | none =>
        rw [hc] at h
        match hr : processChildren rest path b with
        | none => rw [hr] at h; exact absurd h (by simp)
        | some rs =>
          rw [hr] at h
          simp only [Option.map_some', Option.some.injEq] at h
          subst h
          obtain ⟨pre, d, post, d', hcs, hcs', hdp, hd, hpre⟩ := ih rs hr
          exact ⟨c :: pre, d, post, d', by rw [hcs]; rfl, by rw [hcs']; rfl, hdp, hd,
            fun x hx => by
              rcases List.mem_cons.mp hx with rfl | hx'
              · exact Or.inr hc
              · exact hpre x hx'⟩

/-- Converse construction for the second pass: with the same skipped
prefix, a successful call on the replacement child yields the spliced
list. -/
theorem processChildren_splice (path : String) (b : Bool) :
    ∀ (pre : List PathNode) (dnew d'' : PathNode) (post : List PathNode),
    (∀ x ∈ pre, x.isProject = true ∨ processNodeSelection x path b = none) →
    dnew.isProject = false → processNodeSelection dnew path b = some d'' →
    processChildren (pre ++ dnew :: post) path b = some (pre ++ d'' :: post) := by
  intro pre
  induction pre with
  | nil =>
    intro dnew d'' post _ hdp hd
    rw [List.nil_append, processChildren, if_neg (by rw [hdp]; simp), hd,
      List.nil_append]
  | cons x pre ih =>
    intro dnew d'' post hpre hdp hd
    rw [List.cons_append, processChildren]
    rcases hpre x (List.mem_cons_self x pre) with hxp | hxn
    · rw [if_pos hxp]
      rw [ih dnew d'' post (fun y hy => hpre y (List.mem_cons_of_mem _ hy)) hdp hd]
      rfl
    · by_cases hxp : x.isProject = true
      · rw [if_pos hxp]
        rw [ih dnew d'' post (fun y hy => hpre y (List.mem_cons_of_mem _ hy)) hdp hd]
        rfl
      · rw [if_neg hxp, hxn]
        rw [ih dnew d'' post (fun y hy => hpre y (List.mem_cons_of_mem _ hy)) hdp hd]
        rfl

theorem PathNode.eta (n : PathNode) :
    PathNode.mk n.name n.path n.fullPath n.isProject n.project n.children
      n.level n.expanded n.selected = n := by
  cases n; rfl

theorem process_eq_target (n : PathNode) (path : String) (b : Bool)
    (h : n.fullPath = path) :
    processNodeSelection n path b = some (selectNodeAndChildren n b) := by
  match n with
  | .mk nm p fp ip pr cs lv e s =>
    rw [processNodeSelection]
    simp only [PathNode.fullPath_mk] at h
    rw [if_pos h]

theorem process_eq_children (n : PathNode) (path : String) (b : Bool)
    (h : ¬ n.fullPath = path) :
    processNodeSelection n path b =
      (processChildren n.children path b).map (fun cs' =>
        (updateParentSelectionState (PathNode.mk n.name n.path n.fullPath
          n.isProject n.project cs' n.level n.expanded n.selected)).1) := by
  match n with
  | .mk nm p fp ip pr cs lv e s =>
    rw [processNodeSelection]
    simp only [PathNode.fullPath_mk] at h
    rw [if_neg h]
    simp only [PathNode.name_mk, PathNode.path_mk, PathNode.fullPath_mk,
      PathNode.isProject_mk, PathNode.project_mk, PathNode.children_mk,
      PathNode.level_mk, PathNode.expanded_mk, PathNode.selected_mk]
    match processChildren cs path b with
    | some cs' => rfl
    | none => rfl

theorem fullPath_ups (n : PathNode) :
    (updateParentSelectionState n).1.fullPath = n.fullPath := by
  rw [← fullPath_eraseSel, eraseSel_updateParentSelectionState, fullPath_eraseSel]

theorem isProject_ups (n : PathNode) :
    (updateParentSelectionState n).1.isProject = n.isProject := by
  rw [← isProject_eraseSel, eraseSel_updateParentSelectionState, isProject_eraseSel]

theorem fullPath_selectAll (n : PathNode) (b : Bool) :
    (selectNodeAndChildren n b).fullPath = n.fullPath := by
  cases n; rfl

theorem process_none_transfer (x : PathNode) (path : String) (b b' : Bool)
    (h : processNodeSelection x path b = none) :
    processNodeSelection x path b' = none := by
  have h1 := process_isSome path b x
  have h2 := process_isSome path b' x
  rw [h] at h1
  simp only [Option.isSome_none] at h1
  rw [← h1] at h2
  cases hx : processNodeSelection x path b'
  · rfl
  · rw [hx] at h2; simp at h2

theorem selCons_children (n : PathNode) (h : selConsistent n = true) :
    ∀ c ∈ n.children, selConsistent c = true := by
  match n with
  | .mk nm p fp ip pr cs lv e s =>
    rw [selConsistent] at h
    simp only [Bool.and_eq_true, selConsistentList_eq, List.all_eq_true] at h
    exact h.2

theorem allUnselAt_children (path : String) (n : PathNode)
    (h : allUnselAtPath path n = true) :
    ∀ c ∈ n.children, allUnselAtPath path c = true := by
  match n with
  | .mk nm p fp ip pr cs lv e s =>
    rw [allUnselAtPath] at h
    simp only [Bool.and_eq_true, allUnselAtPathList_eq, List.all_eq_true] at h
    exact h.2

theorem allUnselAt_self (path : String) (n : PathNode)
    (h : allUnselAtPath path n = true) (hfp : n.fullPath = path) :
    allUnselected n = true := by
  match n with
  | .mk nm p fp ip pr cs lv e s =>
    rw [allUnselAtPath] at h
    simp only [PathNode.fullPath_mk] at hfp
    simp only [Bool.and_eq_true] at h
    have := h.1
    rw [if_pos hfp] at this
    exact this

theorem ups_struct_formula (nm p fp : String) (pr : Option CachedProject)
    (cs : List PathNode) (lv : Nat) (e s : Bool) (h : cs ≠ []) :
    updateParentSelectionState (.mk nm p fp false pr cs lv e s) =
      (.mk nm p fp false pr
        (cs.map (fun c => (updateParentSelectionState c).1)) lv e
        (cs.all (fun c => (updateParentSelectionState c).2)),
       cs.all (fun c => (updateParentSelectionState c).2)) := by
  rw [updateParentSelectionState]
  have hcs : cs.isEmpty = false := by
    cases cs
    · exact absurd rfl h
    · rfl
  simp only [Bool.false_eq_true, if_false, hcs, upsChildren_eq, List.map_map]
  rw [show ((fun r : PathNode × Bool => r.1) ∘ updateParentSelectionState) =
    (fun c => (updateParentSelectionState c).1) from rfl]
  rw [listAllMap]

theorem selCons_project_childless (nm p fp : String) (pr : Option CachedProject)
    (cs : List PathNode) (lv : Nat) (e s : Bool)
    (h : selConsistent (.mk nm p fp true pr cs lv e s) = true) : cs = [] := by
  rw [selConsistent] at h
  simp only [if_true, Bool.and_eq_true] at h
  exact List.isEmpty_iff.mp h.1

theorem selCons_head_eq (nm p fp : String) (pr : Option CachedProject)
    (cs : List PathNode) (lv : Nat) (e s : Bool) (hne : cs ≠ [])
    (h : selConsistent (.mk nm p fp false pr cs lv e s) = true) :
    s = cs.all PathNode.selected := by
  rw [selConsistent] at h
  have hcs : cs.isEmpty = false := by
    cases cs
    · exact absurd rfl hne
    · rfl
  simp only [if_false, Bool.false_eq_true, hcs, Bool.and_eq_true] at h
  simpa using h.1

theorem eraseSel_isProject_eq (x y : PathNode) (h : eraseSel x = eraseSel y) :
    x.isProject = y.isProject := by
  rw [← isProject_eraseSel x, ← isProject_eraseSel y, h]

theorem process_true_then_false (path : String) :
    ∀ n, selConsistent n = true → allUnselAtPath path n = true →
    ∀ n₁, processNodeSelection n path true = some n₁ →
    processNodeSelection (updateParentSelectionState n₁).1 path false =
      some n := by
  intro n
  induction n using PathNode.inductionOn with
  | h nm p fp ip pr cs lv e s ih =>
    intro hcons hu n₁ h₁
    by_cases hfp : fp = path
    · rw [process_eq_target _ _ _ (by simp [hfp])] at h₁
      simp only [Option.some.injEq] at h₁
      subst h₁
      have hfp2 : (updateParentSelectionState
          (selectNodeAndChildren (PathNode.mk nm p fp ip pr cs lv e s) true)).1.fullPath
          = path := by
        rw [fullPath_ups, fullPath_selectAll]
        simp [hfp]
      rw [process_eq_target _ _ _ hfp2]
      have he1 : eraseSel (updateParentSelectionState
          (selectNodeAndChildren (PathNode.mk nm p fp ip pr cs lv e s) true)).1 =
          eraseSel (PathNode.mk nm p fp ip pr cs lv e s) := by
        rw [eraseSel_updateParentSelectionState, eraseSel_selectNodeAndChildren]
      rw [selectAll_congr_eraseSel false _ _ he1]
      rw [selectAll_false_fixed _ (allUnselAt_self path _ hu (by simp [hfp]))]
    · rw [process_eq_children _ _ _ (by simp [hfp])] at h₁
      simp only [PathNode.children_mk, PathNode.name_mk, PathNode.path_mk,
        PathNode.fullPath_mk, PathNode.isProject_mk, PathNode.project_mk,
        PathNode.level_mk, PathNode.expanded_mk, PathNode.selected_mk] at h₁
      cases hpc : processChildren cs path true with
      | none => rw [hpc] at h₁; simp at h₁
      | some cs' =>
        rw [hpc] at h₁
        simp only [Option.map_some', Option.some.injEq] at h₁
        have hip : ip = false := by
          cases hipx : ip
          · rfl
          · exfalso
            have hnil : cs = [] := selCons_project_childless nm p fp pr cs lv e s
              (hipx ▸ hcons)
            subst hnil
            rw [processChildren] at hpc
            exact absurd hpc (by simp)
        subst hip
        subst h₁
        obtain ⟨pre, d, post, d₁, hcs, hcs', hdp, hd, hpre⟩ :=
          processChildren_shape path true cs cs' hpc
        have hcsne : cs ≠ [] := by rw [hcs]; simp
        have hcs'ne : cs' ≠ [] := by rw [hcs']; simp
        have hdmem : d ∈ cs := by rw [hcs]; exact List.mem_append_right _ (List.mem_cons_self _ _)
        have hconsd : selConsistent d = true :=
          selCons_children _ hcons d (by simpa using hdmem)
        have hud : allUnselAtPath path d = true :=
          allUnselAt_children path _ hu d (by simpa using hdmem)
        have hd₂ : processNodeSelection (updateParentSelectionState d₁).1 path
            false = some d := ih d hdmem hconsd hud d₁ hd
        -- idempotence: the second pass operates on the first-pass output itself
        rw [congrArg Prod.fst (ups_idem (PathNode.mk nm p fp false pr cs' lv e s))]
        -- the first-pass result, explicitly
        rw [ups_struct_formula nm p fp pr cs' lv e s hcs'ne]
        dsimp only
        have hconsall : ∀ x ∈ cs, selConsistent x = true :=
          selCons_children _ hcons
        have hfix : ∀ x ∈ cs, (updateParentSelectionState x).1 = x :=
          fun x hx => congrArg Prod.fst (ups_fixed x (hconsall x hx))
        have hpremem : ∀ x ∈ pre, x ∈ cs := by
          intro x hx; rw [hcs]; exact List.mem_append_left _ hx
        have hpostmem : ∀ x ∈ post, x ∈ cs := by
          intro x hx; rw [hcs]
          exact List.mem_append_right _ (List.mem_cons_of_mem _ hx)
        have hmapcs' : cs'.map (fun c => (updateParentSelectionState c).1) =
            pre ++ (updateParentSelectionState d₁).1 :: post := by
          rw [hcs']
          simp only [List.map_append, List.map_cons]
          rw [List.map_congr_left (fun x hx => hfix x (hpremem x hx))]
          rw [List.map_congr_left (fun x hx => hfix x (hpostmem x hx))]
          simp
        rw [hmapcs']
        rw [process_eq_children _ path false (by simp [hfp])]
        simp only [PathNode.children_mk, PathNode.name_mk, PathNode.path_mk,
          PathNode.fullPath_mk, PathNode.isProject_mk, PathNode.project_mk,
          PathNode.level_mk, PathNode.expanded_mk, PathNode.selected_mk]
        have hdnewp : (updateParentSelectionState d₁).1.isProject = false := by
          rw [isProject_ups]
          rw [eraseSel_isProject_eq d₁ d
            (eraseSel_processNodeSelection path true d d₁ hd)]
          exact hdp
        have hpre' : ∀ x ∈ pre, x.isProject = true ∨
            processNodeSelection x path false = none := by
          intro x hx
          rcases hpre x hx with hxp | hxn
          · exact Or.inl hxp
          · exact Or.inr (process_none_transfer x path true false hxn)
        rw [processChildren_splice path false pre _ d post hpre' hdnewp hd₂]
        simp only [Option.map_some', Option.some.injEq]
        rw [show pre ++ d :: post = cs from hcs.symm]
        rw [ups_struct_formula nm p fp pr cs lv e _ hcsne]
        dsimp only
        have h1 : cs.map (fun c => (updateParentSelectionState c).1) = cs := by
          rw [List.map_congr_left hfix]
          simp
        have h2 : (cs.all fun c => (updateParentSelectionState c).2) = s := by
          have hx : (cs.all fun c => (updateParentSelectionState c).2) =
              cs.all PathNode.selected := by
            refine listAllCongr cs _ _ (fun c hc => ?_)
            rw [ups_fixed c (hconsall c hc)]
          rw [hx]
          exact (selCons_head_eq nm p fp pr cs lv e s hcsne hcons).symm
        rw [h1, h2]

/-- C9, amended: the true-then-false toggle restores the tree only when
every node of the target subtree was unselected before the toggle (in
general the round trip leaves the whole target subtree deselected,
`c9_counterexample`).  Precisely: on any aggregate-consistent tree (as a
fresh build produces) in which every node at the target path roots an
entirely unselected subtree, toggling that path to `true` and then
immediately to `false` with no intervening mutation returns exactly the
original tree. -/
theorem c9_amended_roundtrip_unselected (t : PathNode) (path : String)
    (hcons : selConsistent t = true) (hu : allUnselAtPath path t = true) :
    toggleSelection (toggleSelection t path true) path false = t := by
  rw [toggleSelection, toggleSelection]
  cases h₁ : processNodeSelection t path true with
  | none =>
    simp only [Option.getD_none]
    rw [process_none_transfer t path true false h₁]
    rfl
  | some t₁ =>
    simp only [Option.getD_some]
    by_cases hfp : t.fullPath = path
    · rw [process_eq_target t path true hfp] at h₁
      simp only [Option.some.injEq] at h₁
      subst h₁
      rw [process_eq_target _ path false (by rw [fullPath_selectAll]; exact hfp)]
      simp only [Option.getD_some]
      rw [selectAll_congr_eraseSel false _ t (eraseSel_selectNodeAndChildren true t)]
      exact selectAll_false_fixed t (allUnselAt_self path t hu hfp)
    · have hQ := process_true_then_false path t hcons hu t₁ h₁
      rw [process_eq_children t path true hfp] at h₁
      cases hpc : processChildren t.children path true with
      | none => rw [hpc] at h₁; simp at h₁
      | some cs' =>
        rw [hpc] at h₁
        simp only [Option.map_some', Option.some.injEq] at h₁
        have hidem : (updateParentSelectionState t₁).1 = t₁ := by
          rw [← h₁]
          exact congrArg Prod.fst (ups_idem _)
        rw [hidem] at hQ
        rw [hQ]
        rfl

/-- Witness for `c9_amended_roundtrip_unselected` on a freshly built,
fully-unselected two-leaf tree, toggling the group `a`. -/
theorem c9_witness :
    selConsistent ((buildProjectPathTree [⟨1, "x", "a/x"⟩, ⟨2, "y", "a/y"⟩]
      (fun _ => false) "").getD rootNode) = true ∧
    allUnselAtPath "a" ((buildProjectPathTree [⟨1, "x", "a/x"⟩, ⟨2, "y", "a/y"⟩]
      (fun _ => false) "").getD rootNode) = true ∧
    toggleSelection (toggleSelection ((buildProjectPathTree
      [⟨1, "x", "a/x"⟩, ⟨2, "y", "a/y"⟩] (fun _ => false) "").getD rootNode)
      "a" true) "a" false =
      (buildProjectPathTree [⟨1, "x", "a/x"⟩, ⟨2, "y", "a/y"⟩]
        (fun _ => false) "").getD rootNode :=
  ⟨by decide, by decide,
    c9_amended_roundtrip_unselected _ "a" (by decide) (by decide)⟩

/-! ## C7: default expand state of a fresh build plus `applyExpandedState` -/

mutual

/-- Invariant of every node below the root of a fresh (no-search) build:
projects are collapsed and childless; structural nodes are expanded exactly
at level 1. -/
def expandedDefaultOK (n : PathNode) : Bool :=
  match n with
  | .mk _ _ _ ip _ cs lv e _ =>
    (if ip then e == false else e == decide (lv = 1)) &&
    expandedDefaultOKList cs
termination_by structural n

def expandedDefaultOKList (cs : List PathNode) : Bool :=
  match cs with
  | [] => true
  | c :: rest => expandedDefaultOK c && expandedDefaultOKList rest
termination_by structural cs

end

@[simp] theorem expandedDefaultOKList_eq (cs : List PathNode) :
    expandedDefaultOKList cs = cs.all expandedDefaultOK := by
  induction cs with
  | nil => rfl
  | cons c rest ih => simp [expandedDefaultOKList, ih]

mutual

/-- What the claim asserts after `applyExpandedState`: structural nodes
present in the mapping carry the mapped boolean, absent ones the
depth-1 default, and projects stay collapsed. -/
def appliedDefaultOK (m : String → Option Bool) (n : PathNode) : Bool :=
  match n with
  | .mk _ _ fp ip _ cs lv e _ =>
    (if ip then e == false
     else match m fp with
          | some b => e == b
          | none => e == decide (lv = 1)) &&
    appliedDefaultOKList m cs
termination_by structural n

def appliedDefaultOKList (m : String → Option Bool) (cs : List PathNode) : Bool :=
  match cs with
  | [] => true
  | c :: rest => appliedDefaultOK m c && appliedDefaultOKList m rest
termination_by structural cs

end

@[simp] theorem appliedDefaultOKList_eq (m : String → Option Bool)
    (cs : List PathNode) :
    appliedDefaultOKList m cs = cs.all (appliedDefaultOK m) := by
  induction cs with
  | nil => rfl
  | cons c rest ih => simp [appliedDefaultOKList, ih]

theorem allOK_insertChild (x : PathNode) (cs : List PathNode)
    (hx : expandedDefaultOK x = true) (hcs : cs.all expandedDefaultOK = true) :
    (insertChild x cs).all expandedDefaultOK = true := by
  induction cs with
  | nil => simp [insertChild, hx]
  | cons d ds ih =>
    simp only [List.all_cons, Bool.and_eq_true] at hcs
    rw [insertChild]
    by_cases h1 : x.name = d.name
    · simp [h1, hx, hcs.2]
    · rw [if_neg h1]
      by_cases h2 : charsLt x.name.data d.name.data = true
      · simp [h2, hx, hcs.1, hcs.2]
      · have h2' : charsLt x.name.data d.name.data = false := by
          cases hx2 : charsLt x.name.data d.name.data
          · rfl
          · exact absurd hx2 h2
        simp only [h2', Bool.false_eq_true, if_false, List.all_cons,
          Bool.and_eq_true]
        exact ⟨hcs.1, ih hcs.2⟩

theorem lookupChild_mem (k : String) (cs : List PathNode) (c : PathNode)
    (h : lookupChild k cs = some c) : c ∈ cs := by
  induction cs with
  | nil => rw [lookupChild] at h; exact absurd h (by simp)
  | cons d ds ih =>
    rw [lookupChild] at h
    by_cases hd : d.name = k
    · rw [if_pos hd] at h
      simp only [Option.some.injEq] at h
      subst h
      exact List.mem_cons_self _ _
    · rw [if_neg hd] at h
      exact List.mem_cons_of_mem _ (ih h)

theorem insertParts_expandedDefaultOK (selm : Int → Bool) (proj : CachedProject) :
    ∀ (parts : List String) (nm p fp : String) (ip : Bool)
      (pr : Option CachedProject) (cs : List PathNode) (lv : Nat) (e s : Bool)
      (fpAcc : String) (i : Nat) (cur' : PathNode),
    cs.all expandedDefaultOK = true →
    insertParts selm proj (.mk nm p fp ip pr cs lv e s) fpAcc i parts = some cur' →
    ∃ cs', cur' = .mk nm p fp ip pr cs' lv e s ∧ cs'.all expandedDefaultOK = true := by
  intro parts
  induction parts with
  | nil =>
    intro nm p fp ip pr cs lv e s fpAcc i cur' hcs h
    rw [insertParts] at h
    simp only [Option.some.injEq] at h
    exact ⟨cs, h.symm, hcs⟩
  | cons part rest ih =>
    intro nm p fp ip pr cs lv e s fpAcc i cur' hcs h
    rw [insertParts] at h
    by_cases hip : ip = true
    · rw [if_pos hip] at h; simp at h
    · rw [if_neg hip] at h
      cases hrest : rest.isEmpty with
      | true =>
        rw [hrest] at h
        simp only [if_true, Option.some.injEq] at h
        refine ⟨_, h.symm, ?_⟩
        refine allOK_insertChild _ cs ?_ hcs
        rw [leafNode, expandedDefaultOK]
        simp
      | false =>
        rw [hrest] at h
        simp only [Bool.false_eq_true, if_false] at h
        cases hlk : lookupChild part cs with
        | some c =>
          rw [hlk] at h
          simp only [Option.getD_some] at h
          have hcOK : expandedDefaultOK c = true := by
            have := List.all_eq_true.mp hcs c (lookupChild_mem part cs c hlk)
            exact this
          match c with
          | .mk nm2 p2 fp2 ip2 pr2 cs2 lv2 e2 s2 =>
            rw [expandedDefaultOK] at hcOK
            simp only [Bool.and_eq_true, expandedDefaultOKList_eq] at hcOK
            match hx : insertParts selm proj
                (.mk nm2 p2 fp2 ip2 pr2 cs2 lv2 e2 s2)
                (if i = 0 then part else fpAcc ++ "/" ++ part) (i + 1) rest with
            | none => rw [hx] at h; simp at h
            | some c' =>
              rw [hx] at h
              simp only [Option.map_some', Option.some.injEq] at h
              obtain ⟨cs2', hc', hcs2'⟩ := ih nm2 p2 fp2 ip2 pr2 cs2 lv2 e2 s2
                _ _ c' hcOK.2 hx
              refine ⟨_, h.symm, ?_⟩
              refine allOK_insertChild c' cs ?_ hcs
              rw [hc', expandedDefaultOK]
              simp only [Bool.and_eq_true, expandedDefaultOKList_eq]
              exact ⟨hcOK.1, hcs2'⟩
        | none =>
          rw [hlk] at h
          simp only [Option.getD_none] at h
          match hx : insertParts selm proj
              (structNode part (if i = 0 then part else fpAcc ++ "/" ++ part) i)
              (if i = 0 then part else fpAcc ++ "/" ++ part) (i + 1) rest with
          | none => rw [hx] at h; simp at h
          | some c' =>
            rw [hx] at h
            simp only [Option.map_some', Option.some.injEq] at h
            rw [structNode] at hx
            obtain ⟨cs2', hc', hcs2'⟩ := ih part part
              (if i = 0 then part else fpAcc ++ "/" ++ part) false none []
              (i + 1) (decide (i < 1)) false _ _ c' (by simp) hx
            refine ⟨_, h.symm, ?_⟩
            refine allOK_insertChild c' cs ?_ hcs
            rw [hc', expandedDefaultOK]
            simp only [Bool.and_eq_true, expandedDefaultOKList_eq]
            refine ⟨?_, hcs2'⟩
            cases i with
            | zero => simp
            | succ j => simp

theorem expandedDefaultOK_alias (l : Option CachedProject) (n : PathNode) :
    expandedDefaultOK (aliasPayloads l n) = expandedDefaultOK n := by
  induction n using PathNode.inductionOn with
  | h nm p fp ip pr cs lv e s ih =>
    rw [aliasPayloads, expandedDefaultOK, expandedDefaultOK]
    simp only [aliasChildren_eq, expandedDefaultOKList_eq, listAllMap]
    rw [listAllCongr cs _ _ (fun c hc => ih c hc)]

theorem expandedDefaultOK_eraseSel (n : PathNode) :
    expandedDefaultOK (eraseSel n) = expandedDefaultOK n := by
  induction n using PathNode.inductionOn with
  | h nm p fp ip pr cs lv e s ih =>
    rw [eraseSel, expandedDefaultOK, expandedDefaultOK]
    simp only [eraseSelChildren_eq, expandedDefaultOKList_eq, listAllMap]
    rw [listAllCongr cs _ _ (fun c hc => ih c hc)]

theorem expandedDefaultOK_ups (n : PathNode) :
    expandedDefaultOK (updateParentSelectionState n).1 = expandedDefaultOK n := by
  rw [← expandedDefaultOK_eraseSel (updateParentSelectionState n).1,
    eraseSel_updateParentSelectionState, expandedDefaultOK_eraseSel]

theorem foldInsert_none (selm : Int → Bool) :
    ∀ (ps : List CachedProject),
    ps.foldl (fun acc p => acc.bind (fun t => insertProject selm t p)) none =
      none := by
  intro ps
  induction ps with
  | nil => rfl
  | cons q qs ihq => rw [List.foldl_cons, Option.none_bind]; exact ihq

theorem applyExpandedState_eq (n : PathNode) (m : String → Option Bool) :
    applyExpandedState n m =
      .mk n.name n.path n.fullPath n.isProject n.project
        (applyChildren n.children m) n.level
        (if n.isProject = false then (m n.fullPath).getD n.expanded
         else n.expanded) n.selected := by
  cases n; rfl

theorem foldInsert_expandedDefaultOK (selm : Int → Bool) :
    ∀ (ps : List CachedProject) (cs0 : List PathNode) (t : PathNode),
    cs0.all expandedDefaultOK = true →
    ps.foldl (fun acc p => acc.bind (fun t => insertProject selm t p))
      (some (.mk "Root" "" "" false none cs0 0 true false)) = some t →
    ∃ cs', t = .mk "Root" "" "" false none cs' 0 true false ∧
      cs'.all expandedDefaultOK = true := by
  intro ps
  induction ps with
  | nil =>
    intro cs0 t h0 hf
    simp only [List.foldl_nil, Option.some.injEq] at hf
    exact ⟨cs0, hf.symm, h0⟩
  | cons p ps ih =>
    intro cs0 t h0 hf
    rw [List.foldl_cons, Option.some_bind] at hf
    cases hx : insertProject selm (.mk "Root" "" "" false none cs0 0 true false) p with
    | none =>
      rw [hx] at hf
      rw [foldInsert_none selm ps] at hf
      exact absurd hf (by simp)
    | some t1 =>
      rw [hx] at hf
      rw [insertProject] at hx
      obtain ⟨cs1, ht1, hcs1⟩ := insertParts_expandedDefaultOK selm p
        (splitSlash p.pathWithNamespace) "Root" "" "" false none cs0 0 true
        false "" 0 t1 h0 hx
      subst ht1
      exact ih cs1 t hcs1 hf

theorem apply_appliedDefaultOK (m : String → Option Bool) (n : PathNode)
    (h : expandedDefaultOK n = true) :
    appliedDefaultOK m (applyExpandedState n m) = true := by
  induction n using PathNode.inductionOn with
  | h nm p fp ip pr cs lv e s ih =>
    rw [expandedDefaultOK] at h
    simp only [Bool.and_eq_true, expandedDefaultOKList_eq, List.all_eq_true] at h
    obtain ⟨hhead, hchild⟩ := h
    rw [applyExpandedState, appliedDefaultOK]
    simp only [applyChildren_eq, appliedDefaultOKList_eq, listAllMap,
      Bool.and_eq_true, List.all_eq_true]
    constructor
    · by_cases hip : ip = true
      · simp only [hip, if_true] at hhead ⊢
        simpa using hhead
      · have hip' : ip = false := by
          cases hx : ip
          · rfl
          · exact absurd hx hip
        simp only [hip', Bool.false_eq_true, if_false] at hhead ⊢
        cases hm : m fp with
        | none => simp only [Option.getD_none]; exact hhead
        | some b => simp only [Option.getD_some]; simp
    · intro c hc
      exact ih c hc (hchild c hc)

/-- C7: in a freshly built (no-search) tree with the persisted expand
mapping applied, every node below the root satisfies the claimed rule:
a structural node whose full path is absent from the mapping is expanded
exactly when its level is 1 and collapsed at every greater depth, a
structural node present in the mapping carries the mapped boolean, and
projects (which the code never gives an expand flag) stay collapsed.  The
root itself is never rendered (spec: "root itself is never rendered as a
node") and is not subject to the rule. -/
theorem c7_expand_defaults (projects : List CachedProject)
    (selm : Int → Bool) (m : String → Option Bool) :
    Option.all (fun t =>
      (applyExpandedState t m).children.all (appliedDefaultOK m))
      (buildProjectPathTree projects selm "") = true := by
  rw [buildProjectPathTree]
  have hfil : FilterProjects projects "" = projects := by
    rw [FilterProjects, if_pos rfl]
  rw [hfil]
  cases hf : projects.foldl
      (fun acc p => acc.bind (fun t => insertProject selm t p))
      (some rootNode) with
  | none => rfl
  | some t =>
    rw [rootNode] at hf
    obtain ⟨cs', ht, hcs'⟩ := foldInsert_expandedDefaultOK selm projects [] t
      (by simp) hf
    simp only [ne_eq, not_true_eq_false, Bool.false_eq_true, if_false,
      Option.all_some, reduceIte]
    subst ht
    have hchil : (updateParentSelectionState
        (aliasPayloads projects.getLast?
          (.mk "Root" "" "" false none cs' 0 true false))).1.children.all
          expandedDefaultOK = true := by
      rw [aliasPayloads]
      simp only [aliasChildren_eq]
      cases hcs : cs'.map (aliasPayloads projects.getLast?) with
      | nil =>
        rw [updateParentSelectionState]
        simp
      | cons c0 rest =>
        rw [ups_struct_formula _ _ _ _ _ _ _ _ (by simp)]
        simp only [PathNode.children_mk, List.all_eq_true, listAllMap]
        intro y hy
        rw [expandedDefaultOK_ups]
        rw [← hcs] at hy
        simp only [List.mem_map] at hy
        obtain ⟨z, hz, rfl⟩ := hy
        rw [expandedDefaultOK_alias]
        exact List.all_eq_true.mp hcs' z hz
    rw [applyExpandedState_eq]
    simp only [PathNode.children_mk, applyChildren_eq, List.all_eq_true,
      listAllMap]
    intro c hc
    exact apply_appliedDefaultOK m c (List.all_eq_true.mp hchil c hc)


/-! ## C8: expanded state is a function of the full path -/

/-- A segment contains no slash. -/
def slashFree (s : String) : Bool := s.data.all (fun c => c ≠ '/')

theorem splitChar_append_sep (ys : List Char) :
    ∀ xs, splitChar '/' (xs ++ '/' :: ys) =
      splitChar '/' xs ++ splitChar '/' ys := by
  intro xs
  induction xs with
  | nil =>
    rw [List.nil_append, splitChar]
    cases hs : splitChar '/' ys with
    | nil => exact absurd hs (splitChar_ne_nil _ _)
    | cons s ss => simp [splitChar, hs]
  | cons c cs ih =>
    rw [List.cons_append, splitChar, ih]
    cases hs : splitChar '/' cs with
    | nil => exact absurd hs (splitChar_ne_nil _ _)
    | cons s ss =>
      rw [splitChar, hs]
      by_cases hc : c = '/'
      · simp [hc]
      · simp [hc]

theorem splitChar_no_sep : ∀ cs : List Char, ∀ seg ∈ splitChar '/' cs, '/' ∉ seg := by
  intro cs
  induction cs with
  | nil =>
    intro seg hseg
    rw [splitChar] at hseg
    simp only [List.mem_singleton] at hseg
    subst hseg
    simp
  | cons a rest ih =>
    intro seg hseg
    rw [splitChar] at hseg
    cases hs : splitChar '/' rest with
    | nil => exact absurd hs (splitChar_ne_nil _ _)
    | cons s0 ss =>
      rw [hs] at hseg
      dsimp only at hseg
      by_cases ha : a = '/'
      · rw [if_pos ha] at hseg
        rcases List.mem_cons.mp hseg with rfl | hseg'
        · simp
        · exact ih seg (by rw [hs]; exact hseg')
      · rw [if_neg ha] at hseg
        rcases List.mem_cons.mp hseg with rfl | hseg'
        · intro hc
          rcases List.mem_cons.mp hc with hc0 | hc1
          · exact ha hc0.symm
          · exact ih s0 (by rw [hs]; exact List.mem_cons_self _ _) hc1
        · exact ih seg (by rw [hs]; exact List.mem_cons_of_mem _ hseg')

theorem splitChar_slashFree (cs : List Char) (h : cs.all (fun c => c ≠ '/') = true) :
    splitChar '/' cs = [cs] := by
  induction cs with
  | nil => rfl
  | cons c rest ih =>
    simp only [List.all_cons, Bool.and_eq_true, decide_eq_true_eq] at h
    rw [splitChar, ih (by simpa using h.2)]
    simp [h.1]

theorem splitSlash_segments_slashFree (s : String) :
    ∀ part ∈ splitSlash s, slashFree part = true := by
  rw [splitSlash]
  intro part hp
  simp only [List.mem_map] at hp
  obtain ⟨seg, hseg, rfl⟩ := hp
  rw [slashFree]
  show seg.all (fun c => decide ¬(c = '/')) = true
  simp only [List.all_eq_true, decide_eq_true_eq]
  intro c hc hx
  subst hx
  exact splitChar_no_sep s.data seg hseg hc

/-- The structural default expand flag, read off a node's full path: a
fresh build expands exactly the paths with at most one segment
(`structNode`'s `Expanded: i < 1` at segment index `i`). -/
def expDefault (fp : String) : Bool := decide ((splitSlash fp).length ≤ 1)

theorem splitSlash_append_slash (a b : String) :
    splitSlash (a ++ "/" ++ b) = splitSlash a ++ splitSlash b := by
  have hdata : (a ++ "/" ++ b).data = a.data ++ '/' :: b.data := by
    rw [String.data_append, String.data_append, List.append_assoc]
    rfl
  rw [splitSlash, hdata, splitChar_append_sep, List.map_append]
  rfl

theorem splitSlash_of_slashFree (p : String) (h : slashFree p = true) :
    splitSlash p = [p] := by
  rw [slashFree] at h
  rw [splitSlash, splitChar_slashFree p.data h]
  rfl

theorem chain_step (fpAcc part : String) (i : Nat)
    (hp : slashFree part = true)
    (hc : i = 0 ∨ (splitSlash fpAcc).length = i) :
    (splitSlash (if i = 0 then part else fpAcc ++ "/" ++ part)).length = i + 1 := by
  cases i with
  | zero => rw [if_pos rfl, splitSlash_of_slashFree part hp]; rfl
  | succ j =>
    rcases hc with h0 | hl
    · exact absurd h0 (Nat.succ_ne_zero j)
    · rw [if_neg (Nat.succ_ne_zero j), splitSlash_append_slash,
        List.length_append, splitSlash_of_slashFree part hp, hl]
      rfl

theorem structNode_expDefault (fpAcc part : String) (i : Nat)
    (hp : slashFree part = true)
    (hc : i = 0 ∨ (splitSlash fpAcc).length = i) :
    expDefault (if i = 0 then part else fpAcc ++ "/" ++ part) = decide (i < 1) := by
  rw [expDefault, chain_step fpAcc part i hp hc]
  rcases Nat.eq_zero_or_pos i with h0 | hpos
  · subst h0; rfl
  · rw [decide_eq_false (by omega), decide_eq_false (by omega)]

mutual

/-- Invariant of a fresh (no-search) build, root included: every structural
node's `Expanded` flag is the default read off its own full path. -/
def expandedByPath (n : PathNode) : Bool :=
  match n with
  | .mk _ _ fp ip _ cs _ e _ =>
    (if ip then true else e == expDefault fp) && expandedByPathList cs
termination_by structural n

def expandedByPathList (cs : List PathNode) : Bool :=
  match cs with
  | [] => true
  | c :: rest => expandedByPath c && expandedByPathList rest
termination_by structural cs

end

@[simp] theorem expandedByPathList_eq (cs : List PathNode) :
    expandedByPathList cs = cs.all expandedByPath := by
  induction cs with
  | nil => rfl
  | cons c rest ih => simp [expandedByPathList, ih]

mutual

/-- After `applyExpandedState` with map `m`, every structural node's flag
is `(m fp).getD (expDefault fp)` — still a pointwise function of the path. -/
def appliedByPath (m : String → Option Bool) (n : PathNode) : Bool :=
  match n with
  | .mk _ _ fp ip _ cs _ e _ =>
    (if ip then true else e == (m fp).getD (expDefault fp)) &&
    appliedByPathList m cs
termination_by structural n

def appliedByPathList (m : String → Option Bool) (cs : List PathNode) : Bool :=
  match cs with
  | [] => true
  | c :: rest => appliedByPath m c && appliedByPathList m rest
termination_by structural cs

end

@[simp] theorem appliedByPathList_eq (m : String → Option Bool)
    (cs : List PathNode) :
    appliedByPathList m cs = cs.all (appliedByPath m) := by
  induction cs with
  | nil => rfl
  | cons c rest ih => simp [appliedByPathList, ih]

mutual

/-- Does the tree contain a structural node whose full path is `k`? -/
def hasStructFP (k : String) (n : PathNode) : Bool :=
  match n with
  | .mk _ _ fp ip _ cs _ _ _ => (!ip && fp == k) || hasStructFPList k cs
termination_by structural n

def hasStructFPList (k : String) (cs : List PathNode) : Bool :=
  match cs with
  | [] => false
  | c :: rest => hasStructFP k c || hasStructFPList k rest
termination_by structural cs

end

@[simp] theorem hasStructFPList_eq (k : String) (cs : List PathNode) :
    hasStructFPList k cs = cs.any (hasStructFP k) := by
  induction cs with
  | nil => rfl
  | cons c rest ih => simp [hasStructFPList, ih]

theorem all_insertChild (P : PathNode → Bool) (x : PathNode)
    (cs : List PathNode) (hx : P x = true) (hcs : cs.all P = true) :
    (insertChild x cs).all P = true := by
  induction cs with
  | nil => simp [insertChild, hx]
  | cons d ds ih =>
    simp only [List.all_cons, Bool.and_eq_true] at hcs
    rw [insertChild]
    by_cases h1 : x.name = d.name
    · simp [h1, hx, hcs.2]
    · rw [if_neg h1]
      by_cases h2 : charsLt x.name.data d.name.data = true
      · simp [h2, hx, hcs.1, hcs.2]
      · have h2' : charsLt x.name.data d.name.data = false := by
          cases hx2 : charsLt x.name.data d.name.data
          · rfl
          · exact absurd hx2 h2
        simp only [h2', Bool.false_eq_true, if_false, List.all_cons,
          Bool.and_eq_true]
        exact ⟨hcs.1, ih hcs.2⟩

theorem insertParts_expandedByPath (selm : Int → Bool) (proj : CachedProject) :
    ∀ (parts : List String) (nm p fp : String) (ip : Bool)
      (pr : Option CachedProject) (cs : List PathNode) (lv : Nat) (e s : Bool)
      (fpAcc : String) (i : Nat) (cur' : PathNode),
    (∀ part ∈ parts, slashFree part = true) →
    (i = 0 ∨ (splitSlash fpAcc).length = i) →
    cs.all expandedByPath = true →
    insertParts selm proj (.mk nm p fp ip pr cs lv e s) fpAcc i parts = some cur' →
    ∃ cs', cur' = .mk nm p fp ip pr cs' lv e s ∧
      cs'.all expandedByPath = true := by
  intro parts
  induction parts with
  | nil =>
    intro nm p fp ip pr cs lv e s fpAcc i cur' hparts hchain hcs h
    rw [insertParts] at h
    simp only [Option.some.injEq] at h
    exact ⟨cs, h.symm, hcs⟩
  | cons part rest ih =>
    intro nm p fp ip pr cs lv e s fpAcc i cur' hparts hchain hcs h
    have hpart : slashFree part = true :=
      hparts part (List.mem_cons_self _ _)
    have hparts' : ∀ q ∈ rest, slashFree q = true :=
      fun q hq => hparts q (List.mem_cons_of_mem _ hq)
    have hchain' : i + 1 = 0 ∨
        (splitSlash (if i = 0 then part else fpAcc ++ "/" ++ part)).length
          = i + 1 :=
      Or.inr (chain_step fpAcc part i hpart hchain)
    rw [insertParts] at h
    by_cases hip : ip = true
    · rw [if_pos hip] at h; simp at h
    · rw [if_neg hip] at h
      cases hrest : rest.isEmpty with
      | true =>
        rw [hrest] at h
        simp only [if_true, Option.some.injEq] at h
        refine ⟨_, h.symm, ?_⟩
        refine all_insertChild _ _ cs ?_ hcs
        rw [leafNode, expandedByPath]
        simp
      | false =>
        rw [hrest] at h
        simp only [Bool.false_eq_true, if_false] at h
        cases hlk : lookupChild part cs with
        | some c =>
          rw [hlk] at h
          simp only [Option.getD_some] at h
          have hcOK : expandedByPath c = true :=
            List.all_eq_true.mp hcs c (lookupChild_mem part cs c hlk)
          match c with
          | .mk nm2 p2 fp2 ip2 pr2 cs2 lv2 e2 s2 =>
            rw [expandedByPath] at hcOK
            simp only [Bool.and_eq_true, expandedByPathList_eq] at hcOK
            match hx : insertParts selm proj
                (.mk nm2 p2 fp2 ip2 pr2 cs2 lv2 e2 s2)
                (if i = 0 then part else fpAcc ++ "/" ++ part) (i + 1) rest with
            | none => rw [hx] at h; simp at h
            | some c' =>
              rw [hx] at h
              simp only [Option.map_some', Option.some.injEq] at h
              obtain ⟨cs2', hc', hcs2'⟩ := ih nm2 p2 fp2 ip2 pr2 cs2 lv2 e2 s2
                _ _ c' hparts' hchain' hcOK.2 hx
              refine ⟨_, h.symm, ?_⟩
              refine all_insertChild _ c' cs ?_ hcs
              rw [hc', expandedByPath]
              simp only [Bool.and_eq_true, expandedByPathList_eq]
              exact ⟨hcOK.1, hcs2'⟩
        | none =>
          rw [hlk] at h
          simp only [Option.getD_none] at h
          match hx : insertParts selm proj
              (structNode part (if i = 0 then part else fpAcc ++ "/" ++ part) i)
              (if i = 0 then part else fpAcc ++ "/" ++ part) (i + 1) rest with
          | none => rw [hx] at h; simp at h
          | some c' =>
            rw [hx] at h
            simp only [Option.map_some', Option.some.injEq] at h
            rw [structNode] at hx
            obtain ⟨cs2', hc', hcs2'⟩ := ih part part
              (if i = 0 then part else fpAcc ++ "/" ++ part) false none []
              (i + 1) (decide (i < 1)) false _ _ c' hparts' hchain'
              (by simp) hx
            refine ⟨_, h.symm, ?_⟩
            refine all_insertChild _ c' cs ?_ hcs
            rw [hc', expandedByPath]
            simp only [Bool.and_eq_true, expandedByPathList_eq]
            refine ⟨?_, hcs2'⟩
            rw [structNode_expDefault fpAcc part i hpart hchain]
            simp

theorem expandedByPath_alias (l : Option CachedProject) (n : PathNode) :
    expandedByPath (aliasPayloads l n) = expandedByPath n := by
  induction n using PathNode.inductionOn with
  | h nm p fp ip pr cs lv e s ih =>
    rw [aliasPayloads, expandedByPath, expandedByPath]
    simp only [aliasChildren_eq, expandedByPathList_eq, listAllMap]
    rw [listAllCongr cs _ _ (fun c hc => ih c hc)]

theorem expandedByPath_eraseSel (n : PathNode) :
    expandedByPath (eraseSel n) = expandedByPath n := by
  induction n using PathNode.inductionOn with
  | h nm p fp ip pr cs lv e s ih =>
    rw [eraseSel, expandedByPath, expandedByPath]
    simp only [eraseSelChildren_eq, expandedByPathList_eq, listAllMap]
    rw [listAllCongr cs _ _ (fun c hc => ih c hc)]

theorem expandedByPath_ups (n : PathNode) :
    expandedByPath (updateParentSelectionState n).1 = expandedByPath n := by
  rw [← expandedByPath_eraseSel (updateParentSelectionState n).1,
    eraseSel_updateParentSelectionState, expandedByPath_eraseSel]

theorem foldInsert_expandedByPath (selm : Int → Bool) :
    ∀ (ps : List CachedProject) (cs0 : List PathNode) (t : PathNode),
    cs0.all expandedByPath = true →
    ps.foldl (fun acc p => acc.bind (fun t => insertProject selm t p))
      (some (.mk "Root" "" "" false none cs0 0 true false)) = some t →
    ∃ cs', t = .mk "Root" "" "" false none cs' 0 true false ∧
      cs'.all expandedByPath = true := by
  intro ps
  induction ps with
  | nil =>
    intro cs0 t h0 hf
    simp only [List.foldl_nil, Option.some.injEq] at hf
    exact ⟨cs0, hf.symm, h0⟩
  | cons p ps ih =>
    intro cs0 t h0 hf
    rw [List.foldl_cons, Option.some_bind] at hf
    cases hx : insertProject selm (.mk "Root" "" "" false none cs0 0 true false) p with
    | none =>
      rw [hx] at hf
      rw [foldInsert_none selm ps] at hf
      exact absurd hf (by simp)
    | some t1 =>
      rw [hx] at hf
      rw [insertProject] at hx
      obtain ⟨cs1, ht1, hcs1⟩ := insertParts_expandedByPath selm p
        (splitSlash p.pathWithNamespace) "Root" "" "" false none cs0 0 true
        false "" 0 t1 (splitSlash_segments_slashFree p.pathWithNamespace)
        (Or.inl rfl) h0 hx
      subst ht1
      exact ih cs1 t hcs1 hf

theorem build_expandedByPath (projects : List CachedProject)
    (selm : Int → Bool) (t : PathNode)
    (h : buildProjectPathTree projects selm "" = some t) :
    expandedByPath t = true := by
  rw [buildProjectPathTree] at h
  have hfil : FilterProjects projects "" = projects := by
    rw [FilterProjects, if_pos rfl]
  rw [hfil] at h
  cases hf : projects.foldl
      (fun acc p => acc.bind (fun t => insertProject selm t p))
      (some rootNode) with
  | none => rw [hf] at h; exact absurd h (by simp)
  | some t0 =>
    rw [hf] at h
    simp only [ne_eq, not_true_eq_false, Bool.false_eq_true, if_false,
      Option.some.injEq, reduceIte] at h
    rw [rootNode] at hf
    obtain ⟨cs', ht0, hcs'⟩ := foldInsert_expandedByPath selm projects [] t0
      (by simp) hf
    subst ht0
    rw [← h, expandedByPath_ups, expandedByPath_alias, expandedByPath]
    simp only [Bool.and_eq_true, expandedByPathList_eq]
    exact ⟨by rfl, hcs'⟩

theorem apply_appliedByPath (m : String → Option Bool) (n : PathNode)
    (h : expandedByPath n = true) :
    appliedByPath m (applyExpandedState n m) = true := by
  induction n using PathNode.inductionOn with
  | h nm p fp ip pr cs lv e s ih =>
    rw [expandedByPath] at h
    simp only [Bool.and_eq_true, expandedByPathList_eq, List.all_eq_true] at h
    obtain ⟨hhead, hchild⟩ := h
    rw [applyExpandedState, appliedByPath]
    simp only [applyChildren_eq, appliedByPathList_eq, listAllMap,
      Bool.and_eq_true, List.all_eq_true]
    constructor
    · by_cases hip : ip = true
      · simp [hip]
      · have hip' : ip = false := by
          cases hx : ip
          · rfl
          · exact absurd hx hip
        simp only [hip', Bool.false_eq_true, if_false, reduceIte] at hhead ⊢
        rw [beq_iff_eq] at hhead
        rw [hhead]
        simp
    · intro c hc
      exact ih c hc (hchild c hc)

theorem hasStructFP_apply (k : String) (m : String → Option Bool)
    (n : PathNode) :
    hasStructFP k (applyExpandedState n m) = hasStructFP k n := by
  induction n using PathNode.inductionOn with
  | h nm p fp ip pr cs lv e s ih =>
    rw [applyExpandedState, hasStructFP, hasStructFP]
    simp only [applyChildren_eq, hasStructFPList_eq, listAnyMap]
    rw [listAnyCongr cs _ _ (fun c hc => ih c hc)]

theorem storeChildren_spec (m : String → Option Bool) :
    ∀ (cs : List PathNode),
    (∀ c ∈ cs, ∀ (m0 : String → Option Bool) (k : String),
      storeExpandedState c m0 k =
        if hasStructFP k c = true then some ((m k).getD (expDefault k))
        else m0 k) →
    ∀ (m0 : String → Option Bool) (k : String),
    storeChildren cs m0 k =
      if hasStructFPList k cs = true then some ((m k).getD (expDefault k))
      else m0 k := by
  intro cs
  induction cs with
  | nil =>
    intro _ m0 k
    rw [storeChildren, hasStructFPList]
    simp
  | cons c rest ih =>
    intro hspec m0 k
    rw [storeChildren, hasStructFPList]
    rw [ih (fun d hd => hspec d (List.mem_cons_of_mem _ hd))
      (storeExpandedState c m0) k]
    rw [hspec c (List.mem_cons_self _ _) m0 k]
    cases hrest : hasStructFPList k rest with
    | true => simp
    | false =>
      cases hc : hasStructFP k c with
      | true => simp
      | false => simp

theorem storeExpandedState_spec (m : String → Option Bool) :
    ∀ (n : PathNode), appliedByPath m n = true →
    ∀ (m0 : String → Option Bool) (k : String),
    storeExpandedState n m0 k =
      if hasStructFP k n = true then some ((m k).getD (expDefault k))
      else m0 k := by
  intro n
  induction n using PathNode.inductionOn with
  | h nm p fp ip pr cs lv e s ih =>
    intro happ m0 k
    rw [appliedByPath] at happ
    simp only [Bool.and_eq_true, appliedByPathList_eq, List.all_eq_true] at happ
    obtain ⟨hhead, hchild⟩ := happ
    rw [storeExpandedState, hasStructFP]
    rw [storeChildren_spec m cs (fun c hc => ih c hc (hchild c hc))]
    simp only [hasStructFPList_eq]
    cases hip : ip with
    | true =>
      simp only [hip, Bool.not_true, Bool.false_and, Bool.false_or, reduceIte]
      rfl
    | false =>
      simp only [hip, Bool.not_false, Bool.true_and, Bool.false_eq_true,
        if_false, reduceIte] at hhead ⊢
      rw [beq_iff_eq] at hhead
      cases hany : cs.any (hasStructFP k) with
      | true => simp
      | false =>
        simp only [Bool.or_false]
        cases hfpk : fp == k with
        | true =>
          rw [beq_iff_eq] at hfpk
          subst hfpk
          simp only [if_true, insertBool, if_pos rfl, hhead]
          simp
        | false =>
          simp only [Bool.false_eq_true, if_false, insertBool]
          rw [if_neg ?hne]
          case hne =>
            intro hkfp
            rw [hkfp] at hfpk
            simp at hfpk

theorem apply_stored_eq (m mp : String → Option Bool) :
    ∀ (n : PathNode), expandedByPath n = true →
    (∀ k, hasStructFP k n = true → mp k = some ((m k).getD (expDefault k))) →
    applyExpandedState n mp = applyExpandedState n m := by
  intro n
  induction n using PathNode.inductionOn with
  | h nm p fp ip pr cs lv e s ih =>
    intro hexp hmp
    rw [expandedByPath] at hexp
    simp only [Bool.and_eq_true, expandedByPathList_eq, List.all_eq_true] at hexp
    obtain ⟨hhead, hchild⟩ := hexp
    rw [applyExpandedState_eq, applyExpandedState_eq]
    simp only [PathNode.name_mk, PathNode.path_mk, PathNode.fullPath_mk,
      PathNode.isProject_mk, PathNode.project_mk, PathNode.children_mk,
      PathNode.level_mk, PathNode.expanded_mk, PathNode.selected_mk,
      PathNode.mk.injEq]
    refine ⟨trivial, trivial, trivial, trivial, trivial, ?_, trivial, ?_, trivial⟩
    · simp only [applyChildren_eq]
      apply List.map_congr_left
      intro c hc
      refine ih c hc (hchild c hc) (fun k hk => hmp k ?_)
      rw [hasStructFP]
      simp only [hasStructFPList_eq, Bool.or_eq_true]
      exact Or.inr (List.any_eq_true.mpr ⟨c, hc, hk⟩)
    · cases hip : ip with
      | true => simp
      | false =>
        simp only [hip, Bool.false_eq_true, if_false, reduceIte] at hhead ⊢
        rw [beq_iff_eq] at hhead
        have hself : hasStructFP fp (.mk nm p fp ip pr cs lv e s) = true := by
          rw [hasStructFP]
          simp [hip]
        rw [hmp fp hself, hhead]
        rfl

/-- C8: round-trip stability of the persisted expand state across a
stateless rebuild.  For every flat record set and every persisted expand
mapping: build the tree, apply the mapping, store the resulting per-path
expanded state back into the session map (`storeExpandedState` over the
applied tree, writing over the same map, as `SettingsPageHandler` does);
then rebuilding from the same records and reapplying the stored mapping
yields exactly the same tree — in particular the same set of expanded
paths — as the first application. -/
theorem c8_store_reapply (projects : List CachedProject) (selm : Int → Bool)
    (m : String → Option Bool) :
    (buildProjectPathTree projects selm "").map (fun t =>
      applyExpandedState t (storeExpandedState (applyExpandedState t m) m)) =
    (buildProjectPathTree projects selm "").map
      (fun t => applyExpandedState t m) := by
  cases hb : buildProjectPathTree projects selm "" with
  | none => rfl
  | some t =>
    simp only [Option.map_some', Option.some.injEq]
    have hexp : expandedByPath t = true := build_expandedByPath projects selm t hb
    have happ : appliedByPath m (applyExpandedState t m) = true :=
      apply_appliedByPath m t hexp
    apply apply_stored_eq m _ t hexp
    intro k hk
    rw [storeExpandedState_spec m (applyExpandedState t m) happ m k,
      hasStructFP_apply k m t, hk]
    simp

/-! ## C5: order (in)dependence of the build -/

theorem char_toNat_inj (a b : Char) (h : a.toNat = b.toNat) : a = b := by
  apply Char.eq_of_val_eq
  rcases ha : a.val with ⟨bva⟩
  rcases hb : b.val with ⟨bvb⟩
  congr 1
  apply BitVec.eq_of_toNat_eq
  have h1 : a.val.toBitVec = bva := by rw [ha]
  have h2 : b.val.toBitVec = bvb := by rw [hb]
  rw [← h1, ← h2]
  exact h

theorem charsLt_asymm : ∀ a b : List Char,
    charsLt a b = true → charsLt b a = false := by
  intro a
  induction a with
  | nil =>
    intro b h
    cases b with
    | nil => exact absurd h (by rw [charsLt]; simp)
    | cons y ys => rw [charsLt]
  | cons x xs ih =>
    intro b h
    cases b with
    | nil => exact absurd h (by rw [charsLt]; simp)
    | cons y ys =>
      rw [charsLt] at h ⊢
      by_cases h1 : x.toNat < y.toNat
      · rw [if_neg (by omega), if_pos h1]
      · rw [if_neg h1] at h
        by_cases h2 : y.toNat < x.toNat
        · rw [if_pos h2] at h; exact absurd h (by simp)
        · rw [if_neg h2] at h
          rw [if_neg h2, if_neg h1]
          exact ih ys h

theorem charsLt_conn : ∀ a b : List Char,
    charsLt a b = false → charsLt b a = false → a = b := by
  intro a
  induction a with
  | nil =>
    intro b hab hba
    cases b with
    | nil => rfl
    | cons y ys => exact absurd hab (by rw [charsLt]; simp)
  | cons x xs ih =>
    intro b hab hba
    cases b with
    | nil => exact absurd hba (by rw [charsLt]; simp)
    | cons y ys =>
      rw [charsLt] at hab hba
      by_cases h1 : x.toNat < y.toNat
      · rw [if_pos h1] at hab; exact absurd hab (by simp)
      · by_cases h2 : y.toNat < x.toNat
        · rw [if_pos h2] at hba; exact absurd hba (by simp)
        · rw [if_neg h1, if_neg h2] at hab
          rw [if_neg h2, if_neg h1] at hba
          have hx : x = y := char_toNat_inj x y (by omega)
          rw [hx, ih ys hab hba]

theorem string_data_inj (x y : String) (h : x.data = y.data) : x = y := by
  cases x
  cases y
  congr 1

theorem lookupChild_name (k : String) :
    ∀ (cs : List PathNode) (c : PathNode),
    lookupChild k cs = some c → c.name = k := by
  intro cs
  induction cs with
  | nil => intro c h; rw [lookupChild] at h; exact absurd h (by simp)
  | cons d ds ih =>
    intro c h
    rw [lookupChild] at h
    by_cases hd : d.name = k
    · rw [if_pos hd] at h
      simp only [Option.some.injEq] at h
      subst h
      exact hd
    · rw [if_neg hd] at h
      exact ih c h

theorem lookupChild_insertChild_self (x : PathNode) :
    ∀ (cs : List PathNode), lookupChild x.name (insertChild x cs) = some x := by
  intro cs
  induction cs with
  | nil => simp [insertChild, lookupChild]
  | cons d ds ih =>
    rw [insertChild]
    by_cases h1 : x.name = d.name
    · rw [if_pos h1, lookupChild, if_pos rfl]
    · rw [if_neg h1]
      by_cases h2 : charsLt x.name.data d.name.data = true
      · rw [if_pos h2, lookupChild, if_pos rfl]
      · rw [if_neg h2, lookupChild, if_neg (fun hd => h1 hd.symm)]
        exact ih

theorem lookupChild_insertChild_ne (x : PathNode) (k : String)
    (hk : x.name ≠ k) :
    ∀ (cs : List PathNode), lookupChild k (insertChild x cs) = lookupChild k cs := by
  intro cs
  induction cs with
  | nil => simp [insertChild, lookupChild, hk]
  | cons d ds ih =>
    rw [insertChild]
    by_cases h1 : x.name = d.name
    · rw [if_pos h1, lookupChild, lookupChild, ← h1]
      rw [if_neg hk, if_neg (h1 ▸ hk)]
    · rw [if_neg h1]
      by_cases h2 : charsLt x.name.data d.name.data = true
      · rw [if_pos h2, lookupChild, if_neg hk]
      · rw [if_neg h2, lookupChild, lookupChild]
        by_cases h3 : d.name = k
        · rw [if_pos h3, if_pos h3]
        · rw [if_neg h3, if_neg h3]
          exact ih

theorem charsLt_trans : ∀ a b c : List Char,
    charsLt a b = true → charsLt b c = true → charsLt a c = true := by
  intro a
  induction a with
  | nil =>
    intro b c hab hbc
    cases b with
    | nil => exact absurd hab (by rw [charsLt]; simp)
    | cons y ys =>
      cases c with
      | nil => exact absurd hbc (by rw [charsLt]; simp)
      | cons z zs => rw [charsLt]
  | cons x xs ih =>
    intro b c hab hbc
    cases b with
    | nil => exact absurd hab (by rw [charsLt]; simp)
    | cons y ys =>
      cases c with
      | nil => exact absurd hbc (by rw [charsLt]; simp)
      | cons z zs =>
        rw [charsLt] at hab hbc ⊢
        by_cases h1 : x.toNat < y.toNat
        · by_cases h2 : y.toNat < z.toNat
          · rw [if_pos (by omega)]
          · rw [if_neg h2] at hbc
            by_cases h3 : z.toNat < y.toNat
            · rw [if_pos h3] at hbc; exact absurd hbc (by simp)
            · rw [if_pos (by omega)]
        · rw [if_neg h1] at hab
          by_cases h1' : y.toNat < x.toNat
          · rw [if_pos h1'] at hab; exact absurd hab (by simp)
          · rw [if_neg h1'] at hab
            by_cases h2 : y.toNat < z.toNat
            · rw [if_pos (by omega)]
            · rw [if_neg h2] at hbc
              by_cases h3 : z.toNat < y.toNat
              · rw [if_pos h3] at hbc; exact absurd hbc (by simp)
              · rw [if_neg h3] at hbc
                rw [if_neg (by omega), if_neg (by omega)]
                exact ih ys zs hab hbc

theorem charsLt_total_of_ne (a b : List Char) (h : a ≠ b) :
    charsLt a b = true ∨ charsLt b a = true := by
  cases hab : charsLt a b with
  | true => exact Or.inl rfl
  | false =>
    cases hba : charsLt b a with
    | true => exact Or.inr rfl
    | false => exact absurd (charsLt_conn a b hab hba) h

theorem insertChild_cons_eq (c d : PathNode) (ds : List PathNode)
    (h : c.name = d.name) : insertChild c (d :: ds) = c :: ds := by
  rw [insertChild, if_pos h]

theorem insertChild_cons_lt (c d : PathNode) (ds : List PathNode)
    (h1 : c.name ≠ d.name) (h2 : charsLt c.name.data d.name.data = true) :
    insertChild c (d :: ds) = c :: d :: ds := by
  rw [insertChild, if_neg h1, if_pos h2]

theorem insertChild_cons_gt (c d : PathNode) (ds : List PathNode)
    (h1 : c.name ≠ d.name) (h2 : charsLt c.name.data d.name.data = false) :
    insertChild c (d :: ds) = d :: insertChild c ds := by
  rw [insertChild, if_neg h1]
  simp only [h2, Bool.false_eq_true, if_false]

theorem insertChild_comm (x y : PathNode) (h : x.name ≠ y.name) :
    ∀ cs : List PathNode,
    insertChild x (insertChild y cs) = insertChild y (insertChild x cs) := by
  have hdxy : x.name.data ≠ y.name.data :=
    fun hd => h (string_data_inj _ _ hd)
  have hsym : y.name ≠ x.name := fun hd => h hd.symm
  intro cs
  induction cs with
  | nil =>
    have hy0 : insertChild y [] = [y] := rfl
    have hx0 : insertChild x [] = [x] := rfl
    rw [hy0, hx0]
    rcases charsLt_total_of_ne _ _ hdxy with hxy | hyx
    · rw [insertChild_cons_lt x y [] h hxy,
        insertChild_cons_gt y x [] hsym (charsLt_asymm _ _ hxy)]
      rfl
    · rw [insertChild_cons_gt x y [] h (charsLt_asymm _ _ hyx),
        insertChild_cons_lt y x [] hsym hyx]
      rfl
  | cons d ds ih =>
    by_cases hxd : x.name = d.name
    · have hyd : y.name ≠ d.name := fun hd => h (hxd.trans hd.symm)
      have hdata : x.name.data = d.name.data := congrArg String.data hxd
      cases hyx : charsLt y.name.data x.name.data with
      | true =>
        rw [insertChild_cons_eq x d ds hxd,
          insertChild_cons_lt y d ds hyd (hdata ▸ hyx),
          insertChild_cons_gt x y (d :: ds) h (charsLt_asymm _ _ hyx),
          insertChild_cons_eq x d ds hxd,
          insertChild_cons_lt y x ds hsym hyx]
      | false =>
        rw [insertChild_cons_eq x d ds hxd,
          insertChild_cons_gt y d ds hyd (hdata ▸ hyx),
          insertChild_cons_eq x d (insertChild y ds) hxd,
          insertChild_cons_gt y x ds hsym hyx]
    · by_cases hyd : y.name = d.name
      · have hdata : y.name.data = d.name.data := congrArg String.data hyd
        cases hxy : charsLt x.name.data y.name.data with
        | true =>
          rw [insertChild_cons_eq y d ds hyd,
            insertChild_cons_lt x y ds h hxy,
            insertChild_cons_lt x d ds hxd (hdata ▸ hxy),
            insertChild_cons_gt y x (d :: ds) hsym (charsLt_asymm _ _ hxy),
            insertChild_cons_eq y d ds hyd]
        | false =>
          rw [insertChild_cons_eq y d ds hyd,
            insertChild_cons_gt x y ds h hxy,
            insertChild_cons_gt x d ds hxd (hdata ▸ hxy),
            insertChild_cons_eq y d (insertChild x ds) hyd]
      · have hdxd : x.name.data ≠ d.name.data :=
          fun hd => hxd (string_data_inj _ _ hd)
        have hdyd : y.name.data ≠ d.name.data :=
          fun hd => hyd (string_data_inj _ _ hd)
        cases hydb : charsLt y.name.data d.name.data with
        | true =>
          cases hxdb : charsLt x.name.data d.name.data with
          | true =>
            rcases charsLt_total_of_ne _ _ hdxy with hxy | hyx
            · rw [insertChild_cons_lt y d ds hyd hydb,
                insertChild_cons_lt x y (d :: ds) h hxy,
                insertChild_cons_lt x d ds hxd hxdb,
                insertChild_cons_gt y x (d :: ds) hsym (charsLt_asymm _ _ hxy),
                insertChild_cons_lt y d ds hyd hydb]
            · rw [insertChild_cons_lt y d ds hyd hydb,
                insertChild_cons_gt x y (d :: ds) h (charsLt_asymm _ _ hyx),
                insertChild_cons_lt x d ds hxd hxdb,
                insertChild_cons_lt y x (d :: ds) hsym hyx]
          | false =>
            have hdx : charsLt d.name.data x.name.data = true := by
              rcases charsLt_total_of_ne _ _ hdxd with h1 | h1
              · rw [h1] at hxdb; exact absurd hxdb (by simp)
              · exact h1
            have hyx : charsLt y.name.data x.name.data = true :=
              charsLt_trans _ _ _ hydb hdx
            rw [insertChild_cons_lt y d ds hyd hydb,
              insertChild_cons_gt x y (d :: ds) h (charsLt_asymm _ _ hyx),
              insertChild_cons_gt x d ds hxd hxdb,
              insertChild_cons_lt y d (insertChild x ds) hyd hydb]
        | false =>
          cases hxdb : charsLt x.name.data d.name.data with
          | true =>
            have hdy : charsLt d.name.data y.name.data = true := by
              rcases charsLt_total_of_ne _ _ hdyd with h1 | h1
              · rw [h1] at hydb; exact absurd hydb (by simp)
              · exact h1
            have hxy : charsLt x.name.data y.name.data = true :=
              charsLt_trans _ _ _ hxdb hdy
            rw [insertChild_cons_gt y d ds hyd hydb,
              insertChild_cons_lt x d (insertChild y ds) hxd hxdb,
              insertChild_cons_lt x d ds hxd hxdb,
              insertChild_cons_gt y x (d :: ds) hsym (charsLt_asymm _ _ hxy),
              insertChild_cons_gt y d ds hyd hydb]
          | false =>
            rw [insertChild_cons_gt y d ds hyd hydb,
              insertChild_cons_gt x d (insertChild y ds) hxd hxdb,
              insertChild_cons_gt x d ds hxd hxdb,
              insertChild_cons_gt y d (insertChild x ds) hyd hydb,
              ih]

theorem insertChild_overwrite (x y : PathNode) (h : x.name = y.name) :
    ∀ cs : List PathNode, insertChild x (insertChild y cs) = insertChild x cs := by
  have hdata : x.name.data = y.name.data := congrArg String.data h
  intro cs
  induction cs with
  | nil => exact insertChild_cons_eq x y [] h
  | cons d ds ih =>
    by_cases hyd : y.name = d.name
    · rw [insertChild_cons_eq y d ds hyd,
        insertChild_cons_eq x y ds h,
        insertChild_cons_eq x d ds (h.trans hyd)]
    · have hxd : x.name ≠ d.name := fun hh => hyd (h.symm.trans hh)
      cases hydb : charsLt y.name.data d.name.data with
      | true =>
        rw [insertChild_cons_lt y d ds hyd hydb,
          insertChild_cons_eq x y (d :: ds) h,
          insertChild_cons_lt x d ds hxd (hdata ▸ hydb)]
      | false =>
        rw [insertChild_cons_gt y d ds hyd hydb,
          insertChild_cons_gt x d (insertChild y ds) hxd (hdata ▸ hydb),
          insertChild_cons_gt x d ds hxd (hdata ▸ hydb),
          ih]

theorem insertParts_shape (selm : Int → Bool) (proj : CachedProject) :
    ∀ (parts : List String) (nm p fp : String) (ip : Bool)
      (pr : Option CachedProject) (cs : List PathNode) (lv : Nat) (e s : Bool)
      (fpAcc : String) (i : Nat) (cur' : PathNode),
    insertParts selm proj (.mk nm p fp ip pr cs lv e s) fpAcc i parts = some cur' →
    ∃ cs', cur' = .mk nm p fp ip pr cs' lv e s := by
  intro parts
  cases parts with
  | nil =>
    intro nm p fp ip pr cs lv e s fpAcc i cur' h
    rw [insertParts] at h
    simp only [Option.some.injEq] at h
    exact ⟨cs, h.symm⟩
  | cons part rest =>
    intro nm p fp ip pr cs lv e s fpAcc i cur' h
    rw [insertParts] at h
    by_cases hip : ip = true
    · rw [if_pos hip] at h; simp at h
    · rw [if_neg hip] at h
      cases hrest : rest.isEmpty with
      | true =>
        rw [hrest] at h
        simp only [if_true, Option.some.injEq] at h
        exact ⟨_, h.symm⟩
      | false =>
        rw [hrest] at h
        simp only [Bool.false_eq_true, if_false] at h
        cases hx : insertParts selm proj
            ((lookupChild part cs).getD
              (structNode part (if i = 0 then part else fpAcc ++ "/" ++ part) i))
            (if i = 0 then part else fpAcc ++ "/" ++ part) (i + 1) rest with
        | none => rw [hx] at h; simp at h
        | some c' =>
          rw [hx] at h
          simp only [Option.map_some', Option.some.injEq] at h
          exact ⟨_, h.symm⟩

theorem insertParts_name (selm : Int → Bool) (proj : CachedProject)
    (cur : PathNode) (fpAcc : String) (i : Nat) (parts : List String)
    (cur' : PathNode)
    (h : insertParts selm proj cur fpAcc i parts = some cur') :
    cur'.name = cur.name := by
  cases cur with
  | mk nm p fp ip pr cs lv e s =>
    obtain ⟨cs', hcs'⟩ := insertParts_shape selm proj parts nm p fp ip pr cs
      lv e s fpAcc i cur' h
    rw [hcs']
    rfl

theorem insertParts_proj_eq (selm : Int → Bool) (proj : CachedProject)
    (nm pth fp : String) (pr : Option CachedProject) (cs : List PathNode)
    (lv : Nat) (e s : Bool) (fpAcc : String) (i : Nat)
    (part : String) (rest : List String) :
    insertParts selm proj (.mk nm pth fp true pr cs lv e s) fpAcc i
      (part :: rest) = none := by
  rw [insertParts]
  simp

theorem insertParts_last_eq (selm : Int → Bool) (proj : CachedProject)
    (nm pth fp : String) (pr : Option CachedProject) (cs : List PathNode)
    (lv : Nat) (e s : Bool) (fpAcc : String) (i : Nat)
    (part : String) (rest : List String) (h : rest.isEmpty = true) :
    insertParts selm proj (.mk nm pth fp false pr cs lv e s) fpAcc i
      (part :: rest) =
    some (.mk nm pth fp false pr
      (insertChild
        (leafNode part (if i = 0 then part else fpAcc ++ "/" ++ part) i
          proj selm) cs) lv e s) := by
  rw [insertParts]
  simp [h]

theorem insertParts_step_eq (selm : Int → Bool) (proj : CachedProject)
    (nm pth fp : String) (pr : Option CachedProject) (cs : List PathNode)
    (lv : Nat) (e s : Bool) (fpAcc : String) (i : Nat)
    (part : String) (rest : List String) (h : rest.isEmpty = false) :
    insertParts selm proj (.mk nm pth fp false pr cs lv e s) fpAcc i
      (part :: rest) =
    (insertParts selm proj
        ((lookupChild part cs).getD
          (structNode part (if i = 0 then part else fpAcc ++ "/" ++ part) i))
        (if i = 0 then part else fpAcc ++ "/" ++ part) (i + 1) rest).map
      (fun c' => .mk nm pth fp false pr (insertChild c' cs) lv e s) := by
  rw [insertParts]
  simp [h]

theorem slot_name (k fp0 : String) (j : Nat) (cs : List PathNode) :
    ((lookupChild k cs).getD (structNode k fp0 j)).name = k := by
  cases hl : lookupChild k cs with
  | none => rfl
  | some u => simpa using lookupChild_name k cs u hl

theorem insertParts_comm (selm : Int → Bool) (p r : CachedProject) :
    ∀ (pre : List String) (a b : String) (s₁ s₂ : List String), a ≠ b →
    ∀ (cur : PathNode) (fpAcc : String) (i : Nat),
    (insertParts selm p cur fpAcc i (pre ++ a :: s₁)).bind
      (fun t => insertParts selm r t fpAcc i (pre ++ b :: s₂)) =
    (insertParts selm r cur fpAcc i (pre ++ b :: s₂)).bind
      (fun t => insertParts selm p t fpAcc i (pre ++ a :: s₁)) := by
  intro pre
  induction pre with
  | nil =>
    intro a b s₁ s₂ hab cur fpAcc i
    obtain ⟨nm, pth, fp, ip, pr, cs, lv, e, s⟩ := cur
    simp only [List.nil_append]
    cases ip with
    | true =>
      rw [insertParts_proj_eq selm p nm pth fp pr cs lv e s fpAcc i a s₁,
        insertParts_proj_eq selm r nm pth fp pr cs lv e s fpAcc i b s₂]
      rfl
    | false =>
      cases hs1 : s₁.isEmpty with
      | true =>
        cases hs2 : s₂.isEmpty with
        | true =>
          rw [insertParts_last_eq selm p nm pth fp pr cs lv e s fpAcc i a s₁ hs1,
            insertParts_last_eq selm r nm pth fp pr cs lv e s fpAcc i b s₂ hs2,
            Option.some_bind, Option.some_bind,
            insertParts_last_eq selm r nm pth fp pr _ lv e s fpAcc i b s₂ hs2,
            insertParts_last_eq selm p nm pth fp pr _ lv e s fpAcc i a s₁ hs1,
            insertChild_comm _ _
              (fun hh => hab ((hh : (b : String) = a).symm)) cs]
        | false =>
          rw [insertParts_last_eq selm p nm pth fp pr cs lv e s fpAcc i a s₁ hs1,
            Option.some_bind,
            insertParts_step_eq selm r nm pth fp pr _ lv e s fpAcc i b s₂ hs2,
            insertParts_step_eq selm r nm pth fp pr cs lv e s fpAcc i b s₂ hs2,
            lookupChild_insertChild_ne
              (leafNode a (if i = 0 then a else fpAcc ++ "/" ++ a) i p selm) b
              (fun hh => hab hh) cs]
          cases hrec : insertParts selm r
              ((lookupChild b cs).getD
                (structNode b (if i = 0 then b else fpAcc ++ "/" ++ b) i))
              (if i = 0 then b else fpAcc ++ "/" ++ b) (i + 1) s₂ with
          | none => rfl
          | some c2 =>
            simp only [Option.map_some', Option.some_bind]
            rw [insertParts_last_eq selm p nm pth fp pr _ lv e s fpAcc i a s₁ hs1]
            have hc2 : c2.name = b :=
              (insertParts_name selm r _ _ _ _ _ hrec).trans
                (slot_name b _ i cs)
            rw [insertChild_comm c2
              (leafNode a (if i = 0 then a else fpAcc ++ "/" ++ a) i p selm)
              (by intro hh; rw [hc2] at hh; exact hab hh.symm) cs]
      | false =>
        cases hs2 : s₂.isEmpty with
        | true =>
          rw [insertParts_step_eq selm p nm pth fp pr cs lv e s fpAcc i a s₁ hs1,
            insertParts_last_eq selm r nm pth fp pr cs lv e s fpAcc i b s₂ hs2,
            Option.some_bind,
            insertParts_step_eq selm p nm pth fp pr _ lv e s fpAcc i a s₁ hs1,
            lookupChild_insertChild_ne
              (leafNode b (if i = 0 then b else fpAcc ++ "/" ++ b) i r selm) a
              (fun hh => hab hh.symm) cs]
          cases hrec : insertParts selm p
              ((lookupChild a cs).getD
                (structNode a (if i = 0 then a else fpAcc ++ "/" ++ a) i))
              (if i = 0 then a else fpAcc ++ "/" ++ a) (i + 1) s₁ with
          | none => rfl
          | some c1 =>
            simp only [Option.map_some', Option.some_bind]
            rw [insertParts_last_eq selm r nm pth fp pr _ lv e s fpAcc i b s₂ hs2]
            have hc1 : c1.name = a :=
              (insertParts_name selm p _ _ _ _ _ hrec).trans
                (slot_name a _ i cs)
            rw [insertChild_comm
              (leafNode b (if i = 0 then b else fpAcc ++ "/" ++ b) i r selm) c1
              (by intro hh; rw [hc1] at hh; exact hab hh.symm) cs]
        | false =>
          rw [insertParts_step_eq selm p nm pth fp pr cs lv e s fpAcc i a s₁ hs1,
            insertParts_step_eq selm r nm pth fp pr cs lv e s fpAcc i b s₂ hs2]
          cases hr1 : insertParts selm p
              ((lookupChild a cs).getD
                (structNode a (if i = 0 then a else fpAcc ++ "/" ++ a) i))
              (if i = 0 then a else fpAcc ++ "/" ++ a) (i + 1) s₁ with
          | none =>
            simp only [Option.map_none', Option.none_bind]
            cases hr2 : insertParts selm r
                ((lookupChild b cs).getD
                  (structNode b (if i = 0 then b else fpAcc ++ "/" ++ b) i))
                (if i = 0 then b else fpAcc ++ "/" ++ b) (i + 1) s₂ with
            | none => rfl
            | some c2 =>
              simp only [Option.map_some', Option.some_bind]
              rw [insertParts_step_eq selm p nm pth fp pr _ lv e s fpAcc i a s₁ hs1]
              have hc2 : c2.name = b :=
                (insertParts_name selm r _ _ _ _ _ hr2).trans
                  (slot_name b _ i cs)
              rw [lookupChild_insertChild_ne c2 a
                (fun hh => hab (hc2 ▸ hh).symm) cs, hr1]
              rfl
          | some c1 =>
            have hc1 : c1.name = a :=
              (insertParts_name selm p _ _ _ _ _ hr1).trans
                (slot_name a _ i cs)
            simp only [Option.map_some', Option.some_bind]
            rw [insertParts_step_eq selm r nm pth fp pr _ lv e s fpAcc i b s₂ hs2,
              lookupChild_insertChild_ne c1 b (fun hh => hab (hc1 ▸ hh)) cs]
            cases hr2 : insertParts selm r
                ((lookupChild b cs).getD
                  (structNode b (if i = 0 then b else fpAcc ++ "/" ++ b) i))
                (if i = 0 then b else fpAcc ++ "/" ++ b) (i + 1) s₂ with
            | none =>
              simp only [Option.map_none', Option.none_bind]
            | some c2 =>
              have hc2 : c2.name = b :=
                (insertParts_name selm r _ _ _ _ _ hr2).trans
                  (slot_name b _ i cs)
              simp only [Option.map_some', Option.some_bind]
              rw [insertParts_step_eq selm p nm pth fp pr _ lv e s fpAcc i a s₁ hs1,
                lookupChild_insertChild_ne c2 a
                  (fun hh => hab (hc2 ▸ hh).symm) cs, hr1]
              simp only [Option.map_some', Option.some.injEq]
              rw [insertChild_comm c2 c1
                (fun hh => hab (hc1 ▸ hc2 ▸ hh).symm) cs]
  | cons c pre' ih =>
    intro a b s₁ s₂ hab cur fpAcc i
    obtain ⟨nm, pth, fp, ip, pr, cs, lv, e, s⟩ := cur
    simp only [List.cons_append]
    cases ip with
    | true =>
      rw [insertParts_proj_eq selm p nm pth fp pr cs lv e s fpAcc i c _,
        insertParts_proj_eq selm r nm pth fp pr cs lv e s fpAcc i c _]
      rfl
    | false =>
      have hne1 : (pre' ++ a :: s₁).isEmpty = false := by
        cases pre' <;> rfl
      have hne2 : (pre' ++ b :: s₂).isEmpty = false := by
        cases pre' <;> rfl
      rw [insertParts_step_eq selm p nm pth fp pr cs lv e s fpAcc i c _ hne1,
        insertParts_step_eq selm r nm pth fp pr cs lv e s fpAcc i c _ hne2]
      have hihc := ih a b s₁ s₂ hab
        ((lookupChild c cs).getD
          (structNode c (if i = 0 then c else fpAcc ++ "/" ++ c) i))
        (if i = 0 then c else fpAcc ++ "/" ++ c) (i + 1)
      have hch : ((lookupChild c cs).getD
          (structNode c (if i = 0 then c else fpAcc ++ "/" ++ c) i)).name = c :=
        slot_name c _ i cs
      cases hr1 : insertParts selm p
          ((lookupChild c cs).getD
            (structNode c (if i = 0 then c else fpAcc ++ "/" ++ c) i))
          (if i = 0 then c else fpAcc ++ "/" ++ c) (i + 1) (pre' ++ a :: s₁) with
      | none =>
        rw [hr1] at hihc
        simp only [Option.map_none', Option.none_bind] at hihc ⊢
        cases hr2 : insertParts selm r
            ((lookupChild c cs).getD
              (structNode c (if i = 0 then c else fpAcc ++ "/" ++ c) i))
            (if i = 0 then c else fpAcc ++ "/" ++ c) (i + 1) (pre' ++ b :: s₂) with
        | none => rfl
        | some c2 =>
          have hc2 : c2.name = c :=
            (insertParts_name selm r _ _ _ _ _ hr2).trans hch
          rw [hr2] at hihc
          simp only [Option.some_bind] at hihc
          simp only [Option.map_some', Option.some_bind]
          rw [insertParts_step_eq selm p nm pth fp pr _ lv e s fpAcc i c _ hne1]
          have hlk : lookupChild c (insertChild c2 cs) = some c2 := by
            rw [← hc2]
            exact lookupChild_insertChild_self c2 cs
          rw [hlk]
          simp only [Option.getD_some]
          rw [hihc.symm]
          rfl
      | some c1 =>
        have hc1 : c1.name = c :=
          (insertParts_name selm p _ _ _ _ _ hr1).trans hch
        rw [hr1] at hihc
        simp only [Option.map_some', Option.some_bind] at hihc ⊢
        rw [insertParts_step_eq selm r nm pth fp pr _ lv e s fpAcc i c _ hne2]
        have hlk1 : lookupChild c (insertChild c1 cs) = some c1 := by
          rw [← hc1]
          exact lookupChild_insertChild_self c1 cs
        rw [hlk1]
        simp only [Option.getD_some]
        cases hr12 : insertParts selm r c1
            (if i = 0 then c else fpAcc ++ "/" ++ c) (i + 1) (pre' ++ b :: s₂) with
        | none =>
          rw [hr12] at hihc
          simp only [Option.map_none']
          cases hr2 : insertParts selm r
              ((lookupChild c cs).getD
                (structNode c (if i = 0 then c else fpAcc ++ "/" ++ c) i))
              (if i = 0 then c else fpAcc ++ "/" ++ c) (i + 1) (pre' ++ b :: s₂) with
          | none => rfl
          | some c2 =>
            have hc2 : c2.name = c :=
              (insertParts_name selm r _ _ _ _ _ hr2).trans hch
            rw [hr2] at hihc
            simp only [Option.some_bind] at hihc
            simp only [Option.map_some', Option.some_bind]
            rw [insertParts_step_eq selm p nm pth fp pr _ lv e s fpAcc i c _ hne1]
            have hlk2 : lookupChild c (insertChild c2 cs) = some c2 := by
              rw [← hc2]
              exact lookupChild_insertChild_self c2 cs
            rw [hlk2]
            simp only [Option.getD_some]
            rw [← hihc]
            rfl
        | some c12 =>
          have hc12 : c12.name = c :=
            (insertParts_name selm r _ _ _ _ _ hr12).trans (hc1 ▸ rfl)
          rw [hr12] at hihc
          cases hr2 : insertParts selm r
              ((lookupChild c cs).getD
                (structNode c (if i = 0 then c else fpAcc ++ "/" ++ c) i))
              (if i = 0 then c else fpAcc ++ "/" ++ c) (i + 1) (pre' ++ b :: s₂) with
          | none =>
            rw [hr2] at hihc
            simp only [Option.none_bind] at hihc
            exact absurd hihc (by simp)
          | some c2 =>
            have hc2 : c2.name = c :=
              (insertParts_name selm r _ _ _ _ _ hr2).trans hch
            rw [hr2] at hihc
            simp only [Option.some_bind] at hihc
            simp only [Option.map_some', Option.some_bind]
            rw [insertParts_step_eq selm p nm pth fp pr _ lv e s fpAcc i c _ hne1]
            have hlk2 : lookupChild c (insertChild c2 cs) = some c2 := by
              rw [← hc2]
              exact lookupChild_insertChild_self c2 cs
            rw [hlk2]
            simp only [Option.getD_some]
            rw [← hihc]
            simp only [Option.map_some', Option.some.injEq]
            rw [insertChild_overwrite c12 c2 (hc12.trans hc2.symm),
              insertChild_overwrite c12 c1 (hc12.trans hc1.symm)]

/-- Two records diverge: their segment lists agree on a common (possibly
empty) prefix and then differ at the next segment.  In particular neither
path is a prefix of the other and the paths are distinct, so the two
records' leaves live in different children slots of a common ancestor. -/
def Diverge (x y : CachedProject) : Prop :=
  ∃ pre a b s₁ s₂, a ≠ b ∧
    splitSlash x.pathWithNamespace = pre ++ a :: s₁ ∧
    splitSlash y.pathWithNamespace = pre ++ b :: s₂

theorem diverge_symm (x y : CachedProject) (h : Diverge x y) : Diverge y x := by
  obtain ⟨pre, a, b, s₁, s₂, hab, h1, h2⟩ := h
  exact ⟨pre, b, a, s₂, s₁, fun hh => hab hh.symm, h2, h1⟩

theorem insertProject_comm (selm : Int → Bool) (x y : CachedProject)
    (hd : Diverge x y) (t : PathNode) :
    (insertProject selm t x).bind (fun u => insertProject selm u y) =
    (insertProject selm t y).bind (fun u => insertProject selm u x) := by
  obtain ⟨pre, a, b, s₁, s₂, hab, h1, h2⟩ := hd
  simp only [insertProject, h1, h2]
  exact insertParts_comm selm x y pre a b s₁ s₂ hab t "" 0

theorem foldInsert_perm (selm : Int → Bool) (ps qs : List CachedProject)
    (hperm : List.Perm ps qs) (hdiv : List.Pairwise Diverge ps)
    (acc : Option PathNode) :
    ps.foldl (fun acc p => acc.bind (fun t => insertProject selm t p)) acc =
    qs.foldl (fun acc p => acc.bind (fun t => insertProject selm t p)) acc := by
  apply hperm.foldl_eq'
  intro x hx y hy z
  by_cases hxy : x = y
  · subst hxy; rfl
  · have hd : Diverge x y :=
      List.Pairwise.forall (fun {u v} h => diverge_symm u v h) hdiv hx hy hxy
    cases z with
    | none => rfl
    | some t =>
      simp only [Option.some_bind]
      exact insertProject_comm selm x y hd t

mutual

/-- Forgets every leaf payload in the tree (used to state order
independence modulo the Go 1.21 payload aliasing). -/
def erasePayload (n : PathNode) : PathNode :=
  match n with
  | .mk nm p fp ip _ cs lv e s =>
    .mk nm p fp ip none (erasePayloadChildren cs) lv e s
termination_by structural n

def erasePayloadChildren (cs : List PathNode) : List PathNode :=
  match cs with
  | [] => []
  | c :: rest => erasePayload c :: erasePayloadChildren rest
termination_by structural cs

end

@[simp] theorem erasePayloadChildren_eq (cs : List PathNode) :
    erasePayloadChildren cs = cs.map erasePayload := by
  induction cs with
  | nil => simp [erasePayloadChildren]
  | cons c rest ih => simp [erasePayloadChildren, ih]

theorem erasePayload_alias (l : Option CachedProject) (n : PathNode) :
    erasePayload (aliasPayloads l n) = erasePayload n := by
  induction n using PathNode.inductionOn with
  | h nm p fp ip pr cs lv e s ih =>
    rw [aliasPayloads, erasePayload, erasePayload]
    simp only [aliasChildren_eq, erasePayloadChildren_eq, List.map_map]
    congr 1
    exact List.map_congr_left (fun c hc => ih c hc)

theorem erasePayload_ups (n : PathNode) :
    updateParentSelectionState (erasePayload n) =
      (erasePayload (updateParentSelectionState n).1,
        (updateParentSelectionState n).2) := by
  induction n using PathNode.inductionOn with
  | h nm p fp ip pr cs lv e s ih =>
    cases ip with
    | true =>
      rw [erasePayload, updateParentSelectionState, updateParentSelectionState]
      simp [erasePayload]
    | false =>
      cases cs with
      | nil =>
        rw [erasePayload, updateParentSelectionState, updateParentSelectionState]
        simp [erasePayload, erasePayloadChildren]
      | cons c rest =>
        rw [erasePayload]
        simp only [erasePayloadChildren_eq]
        rw [ups_struct_formula nm p fp none ((c :: rest).map erasePayload) lv e s
            (by simp),
          ups_struct_formula nm p fp pr (c :: rest) lv e s (by simp),
          erasePayload]
        simp only [erasePayloadChildren_eq, List.map_map, listAllMap]
        have hall : (c :: rest).all
            (fun d => (updateParentSelectionState (erasePayload d)).2) =
            (c :: rest).all (fun d => (updateParentSelectionState d).2) :=
          listAllCongr (c :: rest)
            (fun d => (updateParentSelectionState (erasePayload d)).2)
            (fun d => (updateParentSelectionState d).2)
            (fun d hd => by simp only []; rw [ih d hd])
        have hmapc : List.map
            ((fun d => (updateParentSelectionState d).1) ∘ erasePayload)
            (c :: rest) =
            List.map (erasePayload ∘ fun d => (updateParentSelectionState d).1)
              (c :: rest) :=
          List.map_congr_left (fun d hd => by
            simp only [Function.comp_apply]
            rw [ih d hd])
        rw [hall, hmapc]

theorem erasePayload_ensure (q : String) (n : PathNode) :
    EnsurePathVisibility (erasePayload n) q =
      (erasePayload (EnsurePathVisibility n q).1,
        (EnsurePathVisibility n q).2) := by
  induction n using PathNode.inductionOn with
  | h nm p fp ip pr cs lv e s ih =>
    rw [erasePayload]
    simp only [erasePayloadChildren_eq]
    rw [EnsurePathVisibility, EnsurePathVisibility]
    by_cases hcond : q ≠ "" ∧ IsPathInSearch fp q = false
    · rw [if_pos hcond, if_pos hcond]
      simp only [ensureChildren_eq, List.map_map, listAnyMap, erasePayload,
        erasePayloadChildren_eq]
      have hsnd : (cs.any fun a =>
          (((fun c => EnsurePathVisibility c q) ∘ erasePayload) a).2) =
          cs.any fun a => (EnsurePathVisibility a q).2 :=
        listAnyCongr cs _ _ (fun c hc => by
          simp only [Function.comp_apply]
          rw [ih c hc])
      have hfst : List.map
          ((fun r : PathNode × Bool => r.1) ∘
            (fun c => EnsurePathVisibility c q) ∘ erasePayload) cs =
          List.map (erasePayload ∘ (fun r : PathNode × Bool => r.1) ∘
            fun c => EnsurePathVisibility c q) cs :=
        List.map_congr_left (fun c hc => by
          simp only [Function.comp_apply]
          rw [ih c hc])
      rw [hsnd, hfst]
    · rw [if_neg hcond, if_neg hcond]
      by_cases hip : ip = false
      · rw [if_pos hip, if_pos hip]
        simp [erasePayload]
      · rw [if_neg hip, if_neg hip]
        simp [erasePayload]

theorem erasePayload_ups_fst (x : PathNode) :
    erasePayload (updateParentSelectionState x).1 =
      (updateParentSelectionState (erasePayload x)).1 := by
  rw [erasePayload_ups]

theorem erasePayload_ensure_fst (q : String) (x : PathNode) :
    erasePayload (EnsurePathVisibility x q).1 =
      (EnsurePathVisibility (erasePayload x) q).1 := by
  rw [erasePayload_ensure]

/-- C5, amended: the build is order-independent only up to the leaf
payloads and only for record sets whose paths pairwise diverge (no
collisions).  Under those conditions a permutation of the input yields the
same tree after forgetting payloads: same full paths, same parent/child
relationships, same selection and expansion — but the payloads themselves
still differ with order (Go 1.21 aliasing, see the counterexample), and
without the divergence condition one order can panic while the other
builds a tree. -/
theorem c5_amended_perm_up_to_payload (ps qs : List CachedProject)
    (selm : Int → Bool) (q : String) (hperm : List.Perm ps qs)
    (hdiv : List.Pairwise Diverge ps) :
    (buildProjectPathTree ps selm q).map erasePayload =
    (buildProjectPathTree qs selm q).map erasePayload := by
  rw [buildProjectPathTree, buildProjectPathTree]
  have hpermf : (FilterProjects ps q).Perm (FilterProjects qs q) := by
    rw [FilterProjects, FilterProjects]
    by_cases hq : q = ""
    · rw [if_pos hq, if_pos hq]; exact hperm
    · rw [if_neg hq, if_neg hq]; exact hperm.filter _
  have hdivf : (FilterProjects ps q).Pairwise Diverge := by
    rw [FilterProjects]
    by_cases hq : q = ""
    · rw [if_pos hq]; exact hdiv
    · rw [if_neg hq]; exact hdiv.sublist (List.filter_sublist ps)
  rw [foldInsert_perm selm (FilterProjects ps q) (FilterProjects qs q)
    hpermf hdivf (some rootNode)]
  cases hf : (FilterProjects qs q).foldl
      (fun acc p => acc.bind (fun t => insertProject selm t p))
      (some rootNode) with
  | none => rfl
  | some t =>
    simp only [Option.map_some', Option.some.injEq]
    by_cases hq : q ≠ ""
    · rw [if_pos hq, if_pos hq]
      rw [erasePayload_ensure_fst, erasePayload_ensure_fst,
        erasePayload_ups_fst, erasePayload_ups_fst,
        erasePayload_alias, erasePayload_alias]
    · rw [if_neg hq, if_neg hq]
      rw [erasePayload_ups_fst, erasePayload_ups_fst,
        erasePayload_alias, erasePayload_alias]

/-- Witness for the amended C5 theorem: the two collision-free records
`a/x` and `a/y` diverge pairwise, swapping them is a permutation, and the
two builds agree after forgetting payloads. -/
theorem c5_amended_witness :
    List.Perm [(⟨1, "x", "a/x"⟩ : CachedProject), ⟨2, "y", "a/y"⟩]
      [⟨2, "y", "a/y"⟩, ⟨1, "x", "a/x"⟩] ∧
    List.Pairwise Diverge
      [(⟨1, "x", "a/x"⟩ : CachedProject), ⟨2, "y", "a/y"⟩] ∧
    (buildProjectPathTree [⟨1, "x", "a/x"⟩, ⟨2, "y", "a/y"⟩]
        (fun _ => false) "").map erasePayload =
      (buildProjectPathTree [⟨2, "y", "a/y"⟩, ⟨1, "x", "a/x"⟩]
        (fun _ => false) "").map erasePayload := by
  have hperm : List.Perm [(⟨1, "x", "a/x"⟩ : CachedProject), ⟨2, "y", "a/y"⟩]
      [⟨2, "y", "a/y"⟩, ⟨1, "x", "a/x"⟩] :=
    List.Perm.swap (⟨2, "y", "a/y"⟩ : CachedProject) ⟨1, "x", "a/x"⟩ []
  have hdiv : List.Pairwise Diverge
      [(⟨1, "x", "a/x"⟩ : CachedProject), ⟨2, "y", "a/y"⟩] := by
    refine List.Pairwise.cons ?_ (List.pairwise_singleton _ _)
    intro y hy
    rw [List.mem_singleton] at hy
    subst hy
    exact ⟨["a"], "x", "y", [], [], by decide, by decide, by decide⟩
  exact ⟨hperm, hdiv,
    c5_amended_perm_up_to_payload _ _ (fun _ => false) "" hperm hdiv⟩
